import Mathlib

/-!
# Supper: subtitle acquisition pipeline

A shallow embedding of the Go packages `types`, `list`, `media`, `plugins` and
`app` of `github.com/tympanix/supper`, followed by theorems about them.

Conventions of the embedding

* A Go `error` is `Option Error`; `none` is the nil error.
* A Go slice that may be nil is `Option (List α)`; `none` is the nil slice.
* Interface values whose dynamic type is tested by a type assertion are sum
  types; the assertion is a match.
* External collaborators (file system, subtitle provider, sub-processes) are
  the fields of a `World`, functions of the arguments of the call; every call
  made to one of them is recorded, in call order, in a list of `Event`s
  returned next to the Go result.
* A set of the library `fatih/set` is kept in a map: the order in which its
  `List()` method yields the elements is not fixed by the set. It is a field of
  the `World` too, `ListOrder`, which may give another order in every iteration
  of the item loop; the list that represents a set carries no order of its own.
* `float32` scores are modelled by the rational numbers they denote (the
  evaluator returns a number from 0 to 1); comparing two of them is exact. The
  one `float32` operation of the program, the quotient
  `float32(score) / 100.0`, is rounded to the nearest `float32` as the machine
  does (`roundF32`).
* `log.Fatal` ends the process; a function that can reach it has an explicit
  `exit` outcome. Other log calls have no effect on the results and are left out.
-/

namespace Supper

/-! ## Basic values -/

/-- Go error values; `errors.New` builds `new`, fmt-built messages keep their argument. -/
inductive Error where
  | new (msg : String)
  | scoreTooLow (score : ℚ)
  | external (code : Nat)
  deriving DecidableEq

/-- A `language.Tag`. -/
structure Tag where
  code : String
  deriving DecidableEq

/-- An element of a `set.Interface`: an `interface{}` that may or may not hold a
`language.Tag`. -/
inductive SetItem where
  | tag (t : Tag)
  | other (v : String)
  deriving DecidableEq

/-- The type assertion `l.(language.Tag)`. -/
def SetItem.asTag : SetItem → Option Tag
  | .tag t => some t
  | .other _ => none

/-- The element sequence of a Go slice. -/
abbrev Seq (α : Type) := List α

/-- A `set.Interface` of languages, as the list its `List()` method yields. -/
abbrev LangSet := List SetItem

/-- The library call `set.Difference(a, b)`: the set of the members of `a` that are not
in `b`, each once. The order of the representing list has no meaning: the program reads
the set through `Size` and through `List()`, whose order is `World.ListOrder`. -/
def Difference (a b : LangSet) : LangSet :=
  (a.filter (fun x => !(b.contains x))).dedup

/-! ### The arithmetic of `float32` -/

/-- Doubles `den` or `num` until the quotient `num / den` is in the range of a 24-bit
significand, from 2^23 up to and excluding 2^24; returns the scaled `num` and `den` and
the binary exponent `s`, the quotient of the arguments being the scaled one times 2^s. -/
def f32Scale : Nat → Nat → Nat → Int → Nat × Nat × Int
  | 0, num, den, s => (num, den, s)
  | fuel + 1, num, den, s =>
    if 16777216 * den ≤ num then f32Scale fuel num (2 * den) (s + 1)
    else if num < 8388608 * den then f32Scale fuel (2 * num) den (s - 1)
    else (num, den, s)

/-- The integer nearest to `num / den`, the even one of two at equal distance. -/
def roundHalfEven (num den : Nat) : Nat :=
  if 2 * (num % den) < den then num / den
  else if den < 2 * (num % den) then num / den + 1
  else if (num / den) % 2 = 0 then num / den
  else num / den + 1

/-- The `float32` nearest to the quotient `num / den` (round to nearest, ties to even,
24-bit significand), as a rational number. The exponent is not limited: the values the
program computes, `float32(score)` and its quotient by 100 for a 64-bit `score`, are zero
or in the normal range of `float32`. -/
def roundF32 (num : Int) (den : Nat) : ℚ :=
  if num = 0 ∨ den = 0 then 0
  else
    let n := f32Scale (num.natAbs + den + 24) num.natAbs den 0
    let m : Int := roundHalfEven n.1 n.2.1
    let v : Int := if num < 0 then -m else m
    if 0 ≤ n.2.2 then mkRat (v * 2 ^ n.2.2.toNat) 1 else mkRat v (2 ^ (-n.2.2).toNat)

/-- The library call `Size()` of a set. -/
def LangSet.Size (s : LangSet) : Nat := s.length

/-- The `float32` quotient `float32(score) / 100.0`: the conversion of the integer is
rounded to `float32`, and so is the quotient of that value by 100. -/
def percentF32 (score : Int) : ℚ :=
  roundF32 (roundF32 score 1).num ((roundF32 score 1).den * 100)

/-! ## Package `media`: metadata and movies -/

namespace media

/-- The struct `media.Metadata` (declared in another file of the package; the
fields are those of the `types.Metadata` interface). -/
structure Metadata where
  Group : String
  Codec : String
  Quality : String
  Source : String
  AllTags : List String
  deriving DecidableEq

/-- The struct `media.Movie`. -/
structure Movie where
  Metadata : Metadata
  NameX : String
  YearX : Int
  tags : String
  deriving DecidableEq

/-- The method `MovieName`. -/
def Movie.MovieName (m : Movie) : String := m.NameX

/-- The method `Year`. -/
def Movie.Year (m : Movie) : Int := m.YearX

/-- Modelled from the spec: the episode variant of a media value (its struct is in
another file of the package); it carries metadata, show name, episode name, season and episode
number. -/
structure Episode where
  Metadata : Metadata
  TVShow : String
  EpisodeName : String
  Season : Int
  Number : Int
  deriving DecidableEq

/-- The struct `media.Subtitle`, with the media it belongs to reduced to its
description. -/
structure Subtitle where
  forMedia : String
  lang : Tag
  deriving DecidableEq

/-- A `types.Media` interface value: the dynamic type is one of the three variants. -/
inductive Media where
  | movie (m : Movie)
  | episode (e : Episode)
  | subtitle (s : Subtitle)
  deriving DecidableEq

/-- The method `TypeMovie`: `(m, true)` for a movie (movie.go), `(nil, false)` for a
subtitle (subtitle.go) and, from the spec, for an episode. -/
def Media.TypeMovie : Media → Option Movie
  | .movie m => some m
  | .episode _ => none
  | .subtitle _ => none

/-- The method `(*Movie).Merge`, on values: the receiver after the call and the
returned error. -/
def Movie.Merge (m : Movie) (other : Media) : Movie × Option Error :=
  match other.TypeMovie with
  | some movie =>
    if m.Year ≠ movie.Year then
      (m, some (Error.new "invalid media merge year does not match"))
    else
      ({ m with NameX := movie.MovieName }, none)
  | none => (m, some (Error.new "invalid media merge not same media type"))

/-- A store of media objects; a pointer is an index into it. -/
abbrev Heap := List Media

/-- The call `m.Merge(other)` on pointers: `m` must point to a movie and `other` to
some media object (otherwise Go panics on the nil dereference, here `none`). The
result is the store after the call and the returned error. -/
def MergeAt (h : Heap) (m other : Nat) : Option (Heap × Option Error) :=
  match h[m]?, h[other]? with
  | some (Media.movie mv), some o =>
    let r := mv.Merge o
    some (h.set m (Media.movie r.1), r.2)
  | _, _ => none

/-- A movie parsed from a file name. -/
def alien : Movie :=
  { Metadata := ⟨"GRP", "x264", "1080p", "BluRay", ["1080p", "BluRay", "x264-GRP"]⟩,
    NameX := "Alien", YearX := 1979, tags := "1080p.BluRay.x264-GRP" }

/-- A movie of the same year under another name, as a scraper returns it. -/
def aliens : Movie :=
  { Metadata := ⟨"", "", "", "", []⟩, NameX := "Aliens", YearX := 1979, tags := "" }

end media

/-! ## Package `types`: local media, subtitles, plugins -/

namespace types

/-- A `types.Video`: a local media file that holds video, identified by its path. -/
structure Video where
  path : String
  deriving DecidableEq

/-- A `types.LocalMedia` interface value; the type assertion `media.(types.Video)`
succeeds exactly for the first variant. -/
inductive LocalMedia where
  | video (v : Video)
  | other (path : String)
  deriving DecidableEq

/-- The type assertion `media.(types.Video)`. -/
def LocalMedia.asVideo : LocalMedia → Option Video
  | .video v => some v
  | .other _ => none

/-- A `types.LocalSubtitle`: a subtitle stored on disk. -/
structure LocalSubtitle where
  path : String
  lang : Tag
  hi : Bool
  deriving DecidableEq

/-- A `types.OnlineSubtitle`: a candidate found by a provider. -/
structure OnlineSubtitle where
  link : String
  lang : Tag
  hi : Bool
  deriving DecidableEq

/-- A `types.Subtitle` interface value; the type assertion to
`types.OnlineSubtitle` succeeds exactly for the second variant. -/
inductive Subtitle where
  | loc (s : LocalSubtitle)
  | online (s : OnlineSubtitle)
  deriving DecidableEq

/-- The method `Language`. -/
def Subtitle.Language : Subtitle → Tag
  | .loc s => s.lang
  | .online s => s.lang

/-- The method `IsHI`. -/
def Subtitle.IsHI : Subtitle → Bool
  | .loc s => s.hi
  | .online s => s.hi

/-- Modelled from the spec: the method `IsLang` (implemented by the providers),
the subtitle is in the given language. -/
def Subtitle.IsLang (s : Subtitle) (l : Tag) : Bool := decide (s.Language = l)

/-- A `types.RatedSubtitle`: a subtitle paired with its score. -/
structure RatedSubtitle where
  Subtitle : Subtitle
  Score : ℚ
  deriving DecidableEq

end types

/-! ## Package `list`: the media catalog -/

namespace list

open types

/-- The struct `list.LocalMedia`. -/
structure LocalMedia where
  media : List types.LocalMedia
  deriving DecidableEq

/-- Modelled from the spec: the video list built by `NewVideo` (file `list/video.go`
is missing), the struct holding the given videos in order. -/
structure Video where
  video : List types.Video
  deriving DecidableEq

/-- The constructor `NewVideo(video...)`. -/
def NewVideo (video : List types.Video) : Video := ⟨video⟩

/-- The method `Len` of the video list. -/
def Video.Len (l : Video) : Nat := l.video.length

/-- The method `List` of the video list. -/
def Video.List (l : Video) : List types.Video := l.video

/-- The constructor `NewLocalMedia(media...)`. -/
def NewLocalMedia (media : List types.LocalMedia) : LocalMedia := ⟨media⟩

/-- The method `Add`: the receiver after the call. -/
def LocalMedia.Add (l : LocalMedia) (m : types.LocalMedia) : LocalMedia :=
  { l with media := l.media ++ [m] }

/-- The method `Len`: the returned count and the receiver after the call. -/
def LocalMedia.Len (l : LocalMedia) : Nat × LocalMedia := (l.media.length, l)

/-- The method `List`: the returned slice and the receiver after the call. -/
def LocalMedia.List (l : LocalMedia) : List types.LocalMedia × LocalMedia := (l.media, l)

/-- The method `FilterVideo`: the loop appends every item that asserts to a video to
a fresh slice; returns the new video list and the receiver after the call. -/
def LocalMedia.FilterVideo (l : LocalMedia) : Video × LocalMedia :=
  let video := l.List.1.foldl
    (fun (video : Seq types.Video) media =>
      match media.asVideo with
      | some v => video ++ [v]
      | none => video) []
  (NewVideo video, l)

end list

/-! ## Package `plugins` and the collaborators -/

namespace types

/-- The reader returned by `Download`: the subtitle data. -/
structure Srt where
  data : String
  deriving DecidableEq

end types

namespace plugins

/-- The struct `plugins.Plugin`. -/
structure Plugin where
  NameYaml : String
  ExecYaml : String
  deriving DecidableEq

/-- The method `Name`. -/
def Plugin.Name (p : Plugin) : String := p.NameYaml

end plugins

/-- The collaborators outside the program: each field gives what the call returns. -/
structure World where
  /-- The method `ExistingSubtitles` of a local media item. -/
  ExistingSubtitles : types.Video → Except Error (List types.Subtitle)
  /-- The provider call `a.SearchSubtitles(item)`. -/
  SearchSubtitles : types.Video → Except Error (List types.OnlineSubtitle)
  /-- The method `Download` of an online subtitle. -/
  Download : types.OnlineSubtitle → Except Error types.Srt
  /-- The method `SaveSubtitle` of a local media item. -/
  SaveSubtitle : types.Video → types.Srt → Tag → Except Error types.LocalSubtitle
  /-- The error of `exec.Command(shell[0], shell[1], escape(exec, path)).CombinedOutput()`
  for a plugin command template `exec` and a subtitle path. -/
  CombinedOutput : String → String → Option Error
  /-- The order in which `List()` yields the elements of a set in the iteration of the
  item loop with the given index (the map behind the set fixes none). -/
  ListOrder : Nat → LangSet → List SetItem
  /-- The method `List()` yields every element of the set once. -/
  ListOrder_perm : ∀ i s, (ListOrder i s).Perm s

/-- A call to a collaborator. -/
inductive Event where
  | ExistingSubtitles (item : types.Video)
  | SearchSubtitles (item : types.Video)
  | Sleep (d : Int)
  | Download (s : types.OnlineSubtitle)
  | SaveSubtitle (m : types.Video) (srt : types.Srt) (lang : Tag)
  | Run (p : plugins.Plugin) (s : types.LocalSubtitle)
  deriving DecidableEq

/-- Whether the call is a provider search, a download, a save or a plugin run. -/
def Event.isAcquisition : Event → Bool
  | Event.SearchSubtitles _ => true
  | Event.Download _ => true
  | Event.SaveSubtitle _ _ _ => true
  | Event.Run _ _ => true
  | Event.ExistingSubtitles _ => false
  | Event.Sleep _ => false

/-- Put the events `es` in front of those of a computation. -/
def emit {α : Type} (es : List Event) (r : List Event × α) : List Event × α :=
  (es ++ r.1, r.2)

namespace plugins

/-- The method `(*Plugin).Run`: runs the command of the plugin on the path of the
subtitle and returns its error. -/
def Plugin.Run (w : World) (p : Plugin) (s : types.LocalSubtitle) : List Event × Option Error :=
  ([Event.Run p s], w.CombinedOutput p.ExecYaml s.path)

/-- The struct `plugins.Config`. -/
structure Config where
  PluginList : List Plugin
  deriving DecidableEq

/-- The variables of type `Plugin` that a call of `Plugins` allocates; a pointer
`*Plugin` is an index into them. -/
abbrev Cells := List Plugin

/-- The zero value of the struct `Plugin`. -/
def Plugin.zero : Plugin := ⟨"", ""⟩

/-- The loop of `Plugins` (lines 41-43). The range clause declares the one variable `p`,
here the cell at index `p`, for the whole loop (the Go language before version 1.22):
each iteration assigns the next element of `PluginList` to it and appends the pointer
`&p` to `pl`. -/
def pluginsLoop (p : Nat) : List Plugin → Cells → List Nat → Cells × List Nat
  | [], cells, pl => (cells, pl)
  | x :: rest, cells, pl => pluginsLoop p rest (cells.set p x) (pl ++ [p])

/-- The method `(*Config).Plugins`: the variables allocated and the returned slice of
pointers into them. -/
def Config.Plugins (c : Config) : Cells × List Nat :=
  pluginsLoop 0 c.PluginList [Plugin.zero] []

/-- The plugin behind the `i`-th interface value returned by `Plugins`, as a caller
finds it after the return when it calls `Name` or `Run` through the pointer. -/
def Config.returned (c : Config) (i : Nat) : Option Plugin :=
  match c.Plugins.2[i]? with
  | some ptr => c.Plugins.1[ptr]?
  | none => none

/-- The plugins the caller of `Plugins` works with: the values behind the returned
pointers, in the order of the returned slice. -/
def Config.handed (c : Config) : List Plugin :=
  c.Plugins.2.filterMap (fun ptr => c.Plugins.1[ptr]?)

/-- The loop of `Plugins` as the Go language from version 1.22 on runs it in a module
that declares such a version: every iteration has a variable `p` of its own, a new cell,
so the pointers appended differ. -/
def pluginsLoopPerIteration : List Plugin → Cells → List Nat → Cells × List Nat
  | [], cells, pl => (cells, pl)
  | x :: rest, cells, pl => pluginsLoopPerIteration rest (cells ++ [x]) (pl ++ [cells.length])

/-- The plugins the caller would work with under a loop variable per iteration. -/
def Config.handedPerIteration (c : Config) : List Plugin :=
  (pluginsLoopPerIteration c.PluginList [] []).2.filterMap
    (fun ptr => (pluginsLoopPerIteration c.PluginList [] []).1[ptr]?)

end plugins

/-! ## Package `list`: subtitle lists (file `list/subtitle.go` is missing) -/

namespace list

open types

/-- Modelled from the spec: `list.Subtitles()` without arguments (missing file
`list/subtitle.go`), the empty candidate pool. -/
def Subtitles : List Subtitle := []

/-- Modelled from the spec: `NewSubtitlesFromInterface` (missing file
`list/subtitle.go`); the candidates returned by the provider search form the pool,
each one being a subtitle. -/
def NewSubtitlesFromInterface (search : List OnlineSubtitle) : Except Error (List Subtitle) :=
  .ok (search.map Subtitle.online)

/-- Modelled from the spec: the method `LanguageSet` of a subtitle list (missing file
`list/subtitle.go`), the languages present as local subtitles. -/
def LanguageSet (subs : List Subtitle) : LangSet :=
  subs.map (fun s => SetItem.tag s.Language)

/-- Modelled from the spec: the method `HearingImpaired` (missing file
`list/subtitle.go`); when the flag is false the candidates flagged hearing-impaired
are excluded, when it is true nothing is filtered. -/
def HearingImpaired (subs : List Subtitle) (hi : Bool) : List Subtitle :=
  if hi then subs else subs.filter (fun s => !s.IsHI)

/-- Modelled from the spec: the method `FilterLanguage` (missing file
`list/subtitle.go`), the candidates in the given language. -/
def FilterLanguage (subs : List Subtitle) (l : Tag) : List Subtitle :=
  subs.filter (fun s => s.IsLang l)

/-- Modelled from the spec: the method `RateByMedia` (missing file
`list/subtitle.go`); scores every candidate with the evaluator, one rated subtitle
per candidate, without filtering. -/
def RateByMedia (subs : List Subtitle) (m : types.Video)
    (e : types.Video → Subtitle → ℚ) : List RatedSubtitle :=
  subs.map (fun s => { Subtitle := s, Score := e m s })

/-- Modelled from the spec: the method `Best` of a non-empty rated list (missing file
`list/subtitle.go`); the maximum score, the first one in input order among equals.
The first argument is the best one so far. -/
def Best : RatedSubtitle → List RatedSubtitle → RatedSubtitle
  | b, [] => b
  | b, r :: rs => if b.Score < r.Score then Best r rs else Best b rs

/-- Modelled from the spec: the method `FilterMissingSubs` of the video list (missing
file `list/video.go`); keeps, in order, the items that miss one of the wanted
languages, and fails with the error of `ExistingSubtitles` when an item cannot list
its subtitles. -/
def FilterMissingSubs (w : World) (lang : LangSet) :
    List types.Video → List Event × Except Error (List types.Video)
  | [] => ([], .ok [])
  | m :: rest =>
    match w.ExistingSubtitles m with
    | .error err => ([Event.ExistingSubtitles m], .error err)
    | .ok subs =>
      let r := FilterMissingSubs w lang rest
      match r.2 with
      | .error err => (Event.ExistingSubtitles m :: r.1, .error err)
      | .ok keep =>
        if (Difference lang (LanguageSet subs)).Size > 0 then
          (Event.ExistingSubtitles m :: r.1, .ok (m :: keep))
        else
          (Event.ExistingSubtitles m :: r.1, .ok keep)

end list

/-! ## Package `app`: the acquisition orchestrator (file `app/app_subtitle.go`) -/

namespace app

open types list

/-- The configuration read through `a.Config()`. -/
structure Config where
  Dry : Bool
  Strict : Bool
  Impaired : Bool
  Delay : Int
  Score : Int
  Evaluator : types.Video → Subtitle → ℚ
  Plugins : List plugins.Plugin

/-- What a Go function with results `([]types.LocalSubtitle, error)` does at its end:
it returns, or the process has been ended by `log.Fatal`. -/
inductive Outcome where
  | ret (result : Option (List LocalSubtitle)) (err : Option Error)
  | exit
  deriving DecidableEq

/-- How a loop ends: it runs to its end with the accumulated `result`, or it leaves the
function. -/
inductive Flow where
  | next (result : Option (List LocalSubtitle))
  | stop (o : Outcome)
  deriving DecidableEq

/-- The result `(types.LocalSubtitle, error)` of `downloadBestSubtitle`, or the end of
the process. -/
inductive Saved where
  | ok (s : LocalSubtitle)
  | err (e : Error)
  | exit
  deriving DecidableEq

/-- The Go call `append(result, sub)` on a slice that may be nil. -/
def goAppend (result : Option (List LocalSubtitle)) (sub : LocalSubtitle) :
    Option (List LocalSubtitle) :=
  some (result.getD [] ++ [sub])

/-- The loop of `execPluginsOnSubtitle` over the remaining plugins. -/
def execPluginsLoop (w : World) (s : LocalSubtitle) :
    List plugins.Plugin → List Event × Option Error
  | [] => ([], none)
  | plugin :: rest =>
    let r := plugin.Run w s
    match r.2 with
    | some err => (r.1, some err)
    | none => emit r.1 (execPluginsLoop w s rest)

/-- The method `execPluginsOnSubtitle`. -/
def execPluginsOnSubtitle (cfg : Config) (w : World) (s : LocalSubtitle) :
    List Event × Option Error :=
  execPluginsLoop w s cfg.Plugins

/-- The threshold `float32(a.Config().Score()) / 100.0` of line 126: the configured
percentage converted to `float32` and divided by 100 in `float32`. -/
def threshold (cfg : Config) : ℚ := percentF32 cfg.Score

/-- The method `downloadBestSubtitle`. -/
def downloadBestSubtitle (cfg : Config) (w : World) (m : types.Video) (l : List Subtitle) :
    List Event × Saved :=
  match RateByMedia l m cfg.Evaluator with
  | [] => ([], Saved.err (Error.new "no subtitles satisfied media"))
  | r :: rs =>
    let sub := Best r rs
    if sub.Score < threshold cfg then
      ([], Saved.err (Error.scoreTooLow sub.Score))
    else
      match sub.Subtitle with
      | Subtitle.loc _ => ([], Saved.exit)
      | Subtitle.online onl =>
        match w.Download onl with
        | .error err => ([Event.Download onl], Saved.err err)
        | .ok srt =>
          match w.SaveSubtitle m srt onl.lang with
          | .error err =>
            ([Event.Download onl, Event.SaveSubtitle m srt onl.lang], Saved.err err)
          | .ok saved =>
            let p := execPluginsOnSubtitle cfg w saved
            match p.2 with
            | some err =>
              emit [Event.Download onl, Event.SaveSubtitle m srt onl.lang] (p.1, Saved.err err)
            | none =>
              emit [Event.Download onl, Event.SaveSubtitle m srt onl.lang] (p.1, Saved.ok saved)

/-- Lines 84-86 of `DownloadSubtitles`: the pause before each language when a delay is
configured. -/
def pause (cfg : Config) : List Event :=
  if cfg.Delay > 0 then [Event.Sleep cfg.Delay] else []

/-- The inner loop of `DownloadSubtitles` (lines 81-113) over the remaining missing
languages of `item`; `err` is the value of the variable `err` of the enclosing
iteration. -/
def langLoop (cfg : Config) (w : World) (item : types.Video) (subs : List Subtitle)
    (err : Option Error) :
    List SetItem → Option (List LocalSubtitle) → List Event × Flow
  | [], result => ([], Flow.next result)
  | l :: rest, result =>
    match l.asTag with
    | none => (pause cfg, Flow.stop (Outcome.ret none err))
    | some l =>
      let langsubs := FilterLanguage subs l
      if langsubs.length == 0 && !cfg.Dry then
        emit (pause cfg) (langLoop cfg w item subs err rest result)
      else if !cfg.Dry then
        let d := downloadBestSubtitle cfg w item langsubs
        match d.2 with
        | Saved.err e =>
          if cfg.Strict then
            (pause cfg ++ d.1, Flow.stop (Outcome.ret none (some e)))
          else
            emit (pause cfg ++ d.1) (langLoop cfg w item subs err rest result)
        | Saved.exit => (pause cfg ++ d.1, Flow.stop Outcome.exit)
        | Saved.ok sub =>
          emit (pause cfg ++ d.1) (langLoop cfg w item subs err rest (goAppend result sub))
      else
        emit (pause cfg) (langLoop cfg w item subs err rest result)

/-- How the search of one iteration (lines 60-76) ends. -/
inductive Searched where
  | subs (subs : List Subtitle) (err : Option Error)
  | skip
  | stop (o : Outcome)

/-- Lines 60-76 of `DownloadSubtitles`: the candidate pool of `item`, with the value
left in the variable `err`. -/
def searchStep (cfg : Config) (w : World) (item : types.Video) : List Event × Searched :=
  if !cfg.Dry then
    match w.SearchSubtitles item with
    | .error err =>
      if cfg.Strict then
        ([Event.SearchSubtitles item], Searched.stop (Outcome.ret none (some err)))
      else
        ([Event.SearchSubtitles item], Searched.skip)
    | .ok search =>
      match NewSubtitlesFromInterface search with
      | .error _ => ([Event.SearchSubtitles item], Searched.stop Outcome.exit)
      | .ok subs => ([Event.SearchSubtitles item], Searched.subs subs none)
  else
    ([], Searched.subs Subtitles none)

/-- The outer loop of `DownloadSubtitles` (lines 42-114) over the remaining items; `i`
is the index of the first of them, the loop variable `i`. -/
def itemLoop (cfg : Config) (w : World) (lang : LangSet) :
    Nat → List types.Video → Option (List LocalSubtitle) → List Event × Flow
  | _, [], result => ([], Flow.next result)
  | i, item :: rest, result =>
    match w.ExistingSubtitles item with
    | .error err =>
      ([Event.ExistingSubtitles item], Flow.stop (Outcome.ret none (some err)))
    | .ok cursubs =>
      let missingLangs := Difference lang (LanguageSet cursubs)
      if missingLangs.Size = 0 then
        emit [Event.ExistingSubtitles item] (itemLoop cfg w lang (i + 1) rest result)
      else
        let s := searchStep cfg w item
        match s.2 with
        | Searched.stop o => (Event.ExistingSubtitles item :: s.1, Flow.stop o)
        | Searched.skip =>
          emit (Event.ExistingSubtitles item :: s.1) (itemLoop cfg w lang (i + 1) rest result)
        | Searched.subs subs err =>
          let r := langLoop cfg w item (HearingImpaired subs cfg.Impaired) err
            (w.ListOrder i missingLangs) result
          match r.2 with
          | Flow.stop o => (Event.ExistingSubtitles item :: s.1 ++ r.1, Flow.stop o)
          | Flow.next result =>
            emit (Event.ExistingSubtitles item :: s.1 ++ r.1)
              (itemLoop cfg w lang (i + 1) rest result)

/-- The method `DownloadSubtitles`: the calls it makes and how it ends. -/
def DownloadSubtitles (cfg : Config) (w : World) (media : Option list.LocalMedia)
    (lang : Option LangSet) : List Event × Outcome :=
  let result : Option (List LocalSubtitle) := none
  match media with
  | none => ([], Outcome.ret none (some (Error.new "no media supplied for subtitles")))
  | some media =>
    match lang with
    | none => ([], Outcome.ret none (some (Error.new "no languages supplied for subtitles")))
    | some lang =>
      let video := media.FilterVideo.1
      if video.Len = 0 then
        ([], Outcome.ret none (some (Error.new "no video media found in path")))
      else
        let f := FilterMissingSubs w lang video.List
        match f.2 with
        | .error err => (f.1, Outcome.ret none (some err))
        | .ok video =>
          let r := itemLoop cfg w lang 0 (NewVideo video).List result
          match r.2 with
          | Flow.stop o => (f.1 ++ r.1, o)
          | Flow.next result => (f.1 ++ r.1, Outcome.ret result none)

/-- The subtitles a loop hands on or returns. -/
def Flow.results : Flow → List LocalSubtitle
  | Flow.next result => result.getD []
  | Flow.stop (Outcome.ret result _) => result.getD []
  | Flow.stop Outcome.exit => []

/-- Continue with `k` after a loop segment that ended as `r`: the events are chained and
a segment that left the function ends the whole. -/
def andThen (r : List Event × Flow)
    (k : Option (List LocalSubtitle) → List Event × Flow) : List Event × Flow :=
  match r.2 with
  | Flow.next result => emit r.1 (k result)
  | Flow.stop o => (r.1, Flow.stop o)

/-- The subtitle a unit (item, language) adds to the result: the one
`downloadBestSubtitle` returns for the candidates in the language, if it returns one. -/
def unitSaved (cfg : Config) (w : World) (item : types.Video) (subs : List Subtitle)
    (l : Tag) : Option LocalSubtitle :=
  match (downloadBestSubtitle cfg w item (FilterLanguage subs l)).2 with
  | Saved.ok s => some s
  | Saved.err _ => none
  | Saved.exit => none

/-! ### The acquisition as the specification words it -/

/-- The languages an item misses: wanted without present; none when the item cannot
list its subtitles. -/
def missingLangs (w : World) (lang : LangSet) (item : types.Video) : LangSet :=
  match w.ExistingSubtitles item with
  | .ok cursubs => Difference lang (LanguageSet cursubs)
  | .error _ => []

/-- The candidate the rating selects from a pool: one of maximal score, the first in
provider order among equals. -/
def bestCandidate (cfg : Config) (item : types.Video) (pool : List OnlineSubtitle) :
    Option OnlineSubtitle :=
  List.argmax (fun c => cfg.Evaluator item (Subtitle.online c)) pool

/-- The subtitle acquired for a unit (item, language) when every step succeeds: the
search, a best candidate in the language (hearing-impaired ones only when wanted) that
is not below the threshold, its download, the save and every plugin. -/
def acquired (cfg : Config) (w : World) (item : types.Video) (l : Tag) :
    Option LocalSubtitle :=
  match w.SearchSubtitles item with
  | .error _ => none
  | .ok found =>
    match bestCandidate cfg item
        (found.filter (fun c => (cfg.Impaired || !c.hi) && decide (c.lang = l))) with
    | none => none
    | some c =>
      if cfg.Evaluator item (Subtitle.online c) < threshold cfg then none
      else
        match w.Download c with
        | .error _ => none
        | .ok srt =>
          match w.SaveSubtitle item srt c.lang with
          | .error _ => none
          | .ok saved =>
            if cfg.Plugins.all (fun p => (w.CombinedOutput p.ExecYaml saved.path).isNone)
            then some saved else none

/-- The subtitles expected from the videos `items`, the first of which is handled in
iteration `i`: for each video in order, for each of its missing languages in the order in
which `List()` yields them in that iteration, the subtitle acquired for the unit, if
any. -/
def expectedFrom (cfg : Config) (w : World) (lang : LangSet) :
    Nat → List types.Video → List LocalSubtitle
  | _, [] => []
  | i, item :: rest =>
    (w.ListOrder i (missingLangs w lang item)).filterMap
        (fun l => l.asTag.bind (acquired cfg w item))
      ++ expectedFrom cfg w lang (i + 1) rest

/-- The subtitles of a lenient run: the videos that miss a language are handled in
catalog order, the first in iteration 0, and each adds the subtitles acquired for its
missing languages in the order in which `List()` yields them. -/
def expectedResult (cfg : Config) (w : World) (videos : List types.Video) (lang : LangSet) :
    List LocalSubtitle :=
  expectedFrom cfg w lang 0 (videos.filter (fun v => decide (missingLangs w lang v ≠ [])))

/-! ### Sample data -/

/-- The English language tag. -/
def en : Tag := ⟨"en"⟩

/-- The Danish language tag. -/
def da : Tag := ⟨"da"⟩

/-- A first video of the catalog. -/
def video1 : types.Video := ⟨"/media/Alien (1979).mkv"⟩

/-- A second video of the catalog. -/
def video2 : types.Video := ⟨"/media/Heat (1995).mkv"⟩

/-- A well matching English candidate. -/
def cand1 : OnlineSubtitle := ⟨"http://subs/1", en, false⟩

/-- A poorly matching English candidate. -/
def cand2 : OnlineSubtitle := ⟨"http://subs/2", en, false⟩

/-- A Danish candidate whose download fails. -/
def cand3 : OnlineSubtitle := ⟨"http://subs/3", da, false⟩

/-- An evaluator: 9/10 for the first candidate, 4/10 for the second, 8/10 otherwise. -/
def sampleEvaluator (_ : types.Video) (s : Subtitle) : ℚ :=
  match s with
  | Subtitle.online c =>
    if c.link = "http://subs/1" then mkRat 9 10
    else if c.link = "http://subs/2" then mkRat 4 10
    else mkRat 8 10
  | Subtitle.loc _ => 0

/-- A world without local subtitles where every video has the three candidates, the
Danish one cannot be downloaded and every plugin succeeds. -/
def sampleWorld : World where
  ExistingSubtitles := fun _ => .ok []
  SearchSubtitles := fun _ => .ok [cand1, cand2, cand3]
  Download := fun c => if c.lang = da then .error (Error.external 404) else .ok ⟨c.link⟩
  SaveSubtitle := fun m _ l => .ok ⟨m.path ++ "." ++ l.code ++ ".srt", l, false⟩
  CombinedOutput := fun _ _ => none
  ListOrder := fun _ s => s
  ListOrder_perm := fun _ s => List.Perm.refl s

/-- The sample world, except that every download succeeds and `List()` yields the
elements of a set in the order of its list in the first iteration and in the opposite
order in the other iterations. -/
def orderWorld : World :=
  { sampleWorld with
    Download := fun c => .ok ⟨c.link⟩
    ListOrder := fun i s => if i = 0 then s else s.reverse
    ListOrder_perm := fun i s => by
      by_cases h : i = 0
      · simp [h]
      · simp [h, List.reverse_perm] }

/-- The sample world, except that the search fails for the first video. -/
def searchFailWorld : World :=
  { sampleWorld with
    SearchSubtitles := fun m =>
      if m = video1 then .error (Error.external 503) else .ok [cand1, cand2, cand3] }

/-- The sample world, except that no video can list its subtitles. -/
def unreadableWorld : World :=
  { sampleWorld with ExistingSubtitles := fun _ => .error (Error.external 13) }

/-- The sample world, except that every video already has an English subtitle. -/
def coveredWorld : World :=
  { sampleWorld with
    ExistingSubtitles := fun m => .ok [Subtitle.loc ⟨m.path ++ ".en.srt", en, false⟩] }

/-- The sample world, except that the command `false` fails. -/
def pluginFailWorld : World :=
  { sampleWorld with
    CombinedOutput := fun exec _ => if exec = "false" then some (Error.external 1) else none }

/-- Three plugins, the second of which runs the command `false`. -/
def samplePlugins : List plugins.Plugin :=
  [⟨"first", "touch"⟩, ⟨"second", "false"⟩, ⟨"third", "echo"⟩]

/-- The plugin configuration file that lists the three sample plugins. -/
def samplePluginFile : plugins.Config := ⟨samplePlugins⟩

/-- A lenient configuration with a threshold of 60 percent and no plugin. -/
def sampleConfig : Config where
  Dry := false
  Strict := false
  Impaired := false
  Delay := 0
  Score := 60
  Evaluator := sampleEvaluator
  Plugins := []

/-- A configuration with a threshold of 70 percent whose evaluator gives every candidate
the score 11744051/16777216, the `float32` written 0.7. -/
def boundaryConfig : Config :=
  { sampleConfig with Score := 70, Evaluator := fun _ _ => mkRat 11744051 16777216 }

/-- The sample configuration in strict mode. -/
def strictConfig : Config := { sampleConfig with Strict := true }

/-- The sample configuration in dry-run mode. -/
def dryConfig : Config := { sampleConfig with Dry := true }

/-- The sample configuration with the three sample plugins. -/
def pluginConfig : Config := { sampleConfig with Plugins := samplePlugins }

/-- A catalog of the two videos with a subtitle file between them. -/
def sampleCatalog : list.LocalMedia :=
  ⟨[types.LocalMedia.video video1, types.LocalMedia.other "/media/Alien (1979).en.srt",
    types.LocalMedia.video video2]⟩

/-- A saved subtitle. -/
def savedSub : LocalSubtitle := ⟨"/media/Alien (1979).mkv.en.srt", en, false⟩

end app

/-! # Theorems -/

/-! ## The media catalog -/

namespace list

/-- The loop of `FilterVideo` appends the videos of the items to the slice built so far. -/
theorem foldl_video (items : List types.LocalMedia) (acc : List types.Video) :
    items.foldl
      (fun (video : Seq types.Video) media =>
        match media.asVideo with
        | some v => video ++ [v]
        | none => video) acc
      = acc ++ items.filterMap types.LocalMedia.asVideo := by
  induction items generalizing acc with
  | nil => simp
  | cons x xs ih =>
    cases hx : x.asVideo with
    | none => simp [List.foldl_cons, hx, ih, List.filterMap_cons]
    | some v => simp [List.foldl_cons, hx, ih, List.filterMap_cons]

/-- The videos found by `FilterVideo`, as a function of the backing list. -/
theorem FilterVideo_list (l : LocalMedia) :
    l.FilterVideo.1.List = l.media.filterMap types.LocalMedia.asVideo := by
  have h := foldl_video l.media []
  rw [List.nil_append] at h
  exact h

/-- Adding items one after the other appends them to the backing list. -/
theorem foldl_Add (adds : List types.LocalMedia) (l : LocalMedia) :
    (adds.foldl LocalMedia.Add l).media = l.media ++ adds := by
  induction adds generalizing l with
  | nil => simp
  | cons x xs ih => simp [List.foldl_cons, ih, LocalMedia.Add]

/-- Wrapping the videos of a list again gives the items that are videos. -/
theorem map_video_filterMap (items : List types.LocalMedia) :
    (items.filterMap types.LocalMedia.asVideo).map types.LocalMedia.video
      = items.filter (fun m => m.asVideo.isSome) := by
  induction items with
  | nil => simp
  | cons x xs ih =>
    cases x with
    | video v => simp [types.LocalMedia.asVideo, List.filterMap_cons, ih]
    | other p => simp [types.LocalMedia.asVideo, List.filterMap_cons, ih]

/-- C10: a catalog built by `NewLocalMedia(args...)` followed by `Add` calls lists its
items in insertion order, `Len` is their count, `FilterVideo` returns exactly the items
that are videos in the same relative order, and `FilterVideo` leaves the list and the
length of the receiver unchanged. -/
theorem LocalMedia_list_len_filterVideo (args adds : List types.LocalMedia) :
    (adds.foldl LocalMedia.Add (NewLocalMedia args)).List.1 = args ++ adds
    ∧ (adds.foldl LocalMedia.Add (NewLocalMedia args)).Len.1 = (args ++ adds).length
    ∧ ((adds.foldl LocalMedia.Add (NewLocalMedia args)).FilterVideo.1.List.map
          types.LocalMedia.video
        = (args ++ adds).filter (fun m => m.asVideo.isSome))
    ∧ (adds.foldl LocalMedia.Add (NewLocalMedia args)).FilterVideo.2.List.1 = args ++ adds
    ∧ (adds.foldl LocalMedia.Add (NewLocalMedia args)).FilterVideo.2.Len.1
        = (args ++ adds).length := by
  have h : (adds.foldl LocalMedia.Add (NewLocalMedia args)).media = args ++ adds := by
    rw [foldl_Add]; rfl
  refine ⟨?_, ?_, ?_, ?_, ?_⟩
  · simpa [LocalMedia.List] using h
  · simp [LocalMedia.Len, h]
  · rw [FilterVideo_list, h, map_video_filterMap]
  · simpa [LocalMedia.FilterVideo, LocalMedia.List] using h
  · simp [LocalMedia.FilterVideo, LocalMedia.Len, h]

end list

/-! ## Merging movies -/

namespace media

/-- Writing back the object a pointer holds leaves the store as it is. -/
theorem set_same (h : Heap) (m : Nat) (x : Media) (hm : h[m]? = some x) : h.set m x = h := by
  induction h generalizing m with
  | nil => simp
  | cons a t ih =>
    cases m with
    | zero => simp at hm; simp [hm]
    | succ k => simp at hm; simp [ih k hm]

/-- C9 (as stated, refuted): merging a movie of the same year succeeds and replaces a
name that was not a gap. -/
theorem Merge_overwrites_name :
    (Movie.Merge alien (Media.movie aliens)).2 = none
    ∧ alien.NameX = "Alien"
    ∧ (Movie.Merge alien (Media.movie aliens)).1.NameX = "Aliens"
    ∧ MergeAt [Media.movie alien, Media.movie aliens] 0 1
        = some ([Media.movie { alien with NameX := "Aliens" }, Media.movie aliens], none) := by
  decide

/-- C9 (amended): `m.Merge(other)` on a movie `mv` at `m` and a media object `o` at
`other` returns an error exactly when `o` is no movie or its year differs, and then the
store is unchanged; when it succeeds the movie at `m` keeps year, metadata and tags and
takes the name of the other movie; the object at `other` and every object but the one at
`m` are never modified. -/
theorem MergeAt_spec (h : Heap) (m other : Nat) (mv : Movie) (o : Media)
    (hm : h[m]? = some (Media.movie mv)) (ho : h[other]? = some o) :
    ∃ h2 err, MergeAt h m other = some (h2, err)
      ∧ (err ≠ none ↔ (o.TypeMovie = none ∨ ∃ mo, o.TypeMovie = some mo ∧ mo.Year ≠ mv.Year))
      ∧ (err ≠ none → h2 = h)
      ∧ (err = none → ∃ mo, o.TypeMovie = some mo
            ∧ h2[m]? = some (Media.movie
                { Metadata := mv.Metadata, NameX := mo.MovieName, YearX := mv.YearX,
                  tags := mv.tags }))
      ∧ h2[other]? = h[other]?
      ∧ (∀ p, p ≠ m → h2[p]? = h[p]?) := by
  have hlt : m < h.length := by
    rcases List.getElem?_eq_some_iff.mp hm with ⟨hl, _⟩; exact hl
  cases hty : o.TypeMovie with
  | none =>
    refine ⟨h, some (Error.new "invalid media merge not same media type"), ?_, ?_, ?_, ?_, ?_, ?_⟩
    · simp [MergeAt, hm, ho, Movie.Merge, hty]
      exact set_same h m _ hm
    · simp
    · simp
    · simp
    · rfl
    · intro p _; rfl
  | some mo =>
    by_cases hy : mv.Year = mo.Year
    · refine ⟨h.set m (Media.movie { mv with NameX := mo.MovieName }), none, ?_, ?_, ?_, ?_, ?_, ?_⟩
      · simp [MergeAt, hm, ho, Movie.Merge, hty, hy]
      · simp [hy]
      · simp
      · intro _
        exact ⟨mo, rfl, by simp [hlt]⟩
      · by_cases hp : other = m
        · subst hp
          rw [hm] at ho
          have ho2 : o = Media.movie mv := by injection ho with ho; exact ho.symm
          subst ho2
          simp only [Media.TypeMovie, Option.some.injEq] at hty
          subst hty
          simp [hlt, hm, Movie.MovieName]
        · rw [List.getElem?_set_ne (Ne.symm hp)]
      · intro p hp
        rw [List.getElem?_set_ne (Ne.symm hp)]
    · refine ⟨h, some (Error.new "invalid media merge year does not match"), ?_, ?_, ?_, ?_, ?_, ?_⟩
      · simp [MergeAt, hm, ho, Movie.Merge, hty, hy]
        exact set_same h m _ hm
      · simp; exact fun h => hy h.symm
      · simp
      · simp
      · rfl
      · intro p _; rfl

/-- C9 (amended) at two movies of the year 1979 in one store: the merge succeeds and
the object at `other` stays as it was. -/
theorem MergeAt_spec_sample :
    [Media.movie alien, Media.movie aliens][0]? = some (Media.movie alien)
    ∧ ∃ h2 err, MergeAt [Media.movie alien, Media.movie aliens] 0 1 = some (h2, err)
      ∧ h2[1]? = [Media.movie alien, Media.movie aliens][1]? := by
  obtain ⟨h2, err, h1, _, _, _, h5, _⟩ :=
    MergeAt_spec [Media.movie alien, Media.movie aliens] 0 1 alien (Media.movie aliens)
      (by decide) (by decide)
  exact ⟨by decide, h2, err, h1, h5⟩

end media
namespace app
open types list

/-! ## The plugin pipeline -/

/-- The events of a computation with events put in front. -/
@[simp] theorem emit_fst {α : Type} (es : List Event) (r : List Event × α) :
    (emit es r).1 = es ++ r.1 := rfl

/-- The result of a computation with events put in front. -/
@[simp] theorem emit_snd {α : Type} (es : List Event) (r : List Event × α) :
    (emit es r).2 = r.2 := rfl

/-- The plugin loop stops at the first plugin that fails. -/
theorem execPluginsLoop_fail (w : World) (s : LocalSubtitle) (pre : List plugins.Plugin)
    (p : plugins.Plugin) (post : List plugins.Plugin) (e : Error)
    (hpre : ∀ q ∈ pre, (q.Run w s).2 = none) (hp : (p.Run w s).2 = some e) :
    execPluginsLoop w s (pre ++ p :: post)
      = ((pre ++ [p]).map (fun q => Event.Run q s), some e) := by
  induction pre with
  | nil =>
    simp only [List.nil_append, execPluginsLoop, hp]
    simp [plugins.Plugin.Run]
  | cons q qs ih =>
    have hq : (q.Run w s).2 = none := hpre q (List.mem_cons_self _ _)
    have ih2 := ih (fun x hx => hpre x (List.mem_cons_of_mem _ hx))
    simp only [List.cons_append, execPluginsLoop, hq, List.append_eq]
    rw [ih2]
    simp [plugins.Plugin.Run, emit]

/-- The plugin loop returns nil exactly when every plugin succeeds. -/
theorem execPluginsLoop_nil_iff (w : World) (s : LocalSubtitle) (ps : List plugins.Plugin) :
    (execPluginsLoop w s ps).2 = none ↔ ∀ q ∈ ps, (q.Run w s).2 = none := by
  induction ps with
  | nil => simp [execPluginsLoop]
  | cons q qs ih =>
    cases hq : (q.Run w s).2 with
    | none => simp [execPluginsLoop, hq, ih]
    | some e => simp [execPluginsLoop, hq]

/-- The plugin loop that returns nil has run every plugin once, in order. -/
theorem execPluginsLoop_ok (w : World) (s : LocalSubtitle) (ps : List plugins.Plugin)
    (h : (execPluginsLoop w s ps).2 = none) :
    (execPluginsLoop w s ps).1 = ps.map (fun q => Event.Run q s) := by
  induction ps with
  | nil => simp [execPluginsLoop]
  | cons q qs ih =>
    cases hq : (q.Run w s).2 with
    | none =>
      simp only [execPluginsLoop, hq, emit_snd] at h
      simp only [execPluginsLoop, hq, emit_fst, ih h]
      simp [plugins.Plugin.Run]
    | some e => simp [execPluginsLoop, hq] at h

/-- C7: `execPluginsOnSubtitle` runs the plugins in list order, one `Run` each; when
plugin `p`, after the plugins `pre` that all succeed, is the first to fail with `e`, the
calls made are exactly the runs of `pre` and of `p` and the error returned is `e`; the
result is nil exactly when every plugin succeeds, and then every plugin was run once in
order (nothing for the empty list). -/
theorem execPluginsOnSubtitle_order (cfg : Config) (w : World) (s : LocalSubtitle) :
    (∀ pre p post e, cfg.Plugins = pre ++ p :: post →
        (∀ q ∈ pre, (q.Run w s).2 = none) → (p.Run w s).2 = some e →
        execPluginsOnSubtitle cfg w s = ((pre ++ [p]).map (fun q => Event.Run q s), some e))
    ∧ ((execPluginsOnSubtitle cfg w s).2 = none ↔ ∀ q ∈ cfg.Plugins, (q.Run w s).2 = none)
    ∧ ((execPluginsOnSubtitle cfg w s).2 = none →
        (execPluginsOnSubtitle cfg w s).1 = cfg.Plugins.map (fun q => Event.Run q s))
    ∧ (∀ q, (q.Run w s).1 = [Event.Run q s]) := by
  refine ⟨?_, ?_, ?_, ?_⟩
  · intro pre p post e hsplit hpre hp
    unfold execPluginsOnSubtitle
    rw [hsplit]
    exact execPluginsLoop_fail w s pre p post e hpre hp
  · exact execPluginsLoop_nil_iff w s cfg.Plugins
  · exact execPluginsLoop_ok w s cfg.Plugins
  · intro q; rfl

/-- C7 at the three sample plugins, the second of which fails: the first two are run, the
third is not. -/
theorem execPluginsOnSubtitle_order_sample :
    execPluginsOnSubtitle pluginConfig pluginFailWorld savedSub
      = ([Event.Run ⟨"first", "touch"⟩ savedSub, Event.Run ⟨"second", "false"⟩ savedSub],
         some (Error.external 1)) :=
  (execPluginsOnSubtitle_order pluginConfig pluginFailWorld savedSub).1
    [⟨"first", "touch"⟩] ⟨"second", "false"⟩ [⟨"third", "echo"⟩] (Error.external 1)
    (by decide) (by decide) (by decide)

/-! ## The preconditions -/

/-- A catalog without video fails the third precondition before any call. -/
theorem DownloadSubtitles_no_video (cfg : Config) (w : World) (m : list.LocalMedia)
    (L : LangSet) (hv : m.media.filterMap types.LocalMedia.asVideo = []) :
    DownloadSubtitles cfg w (some m) (some L)
      = ([], Outcome.ret none (some (Error.new "no video media found in path"))) := by
  have hnil : m.FilterVideo.1.Len = 0 := by
    have h1 := FilterVideo_list m
    unfold list.Video.Len
    unfold list.Video.List at h1
    rw [h1, hv]
    rfl
  simp only [DownloadSubtitles, hnil, if_true]

/-- C1: when the media list is nil, or the language set is nil, or the media list holds
no video item, `DownloadSubtitles` makes no call at all (no `ExistingSubtitles`, search,
download, save or plugin run) and returns a nil result with a non-nil error. -/
theorem DownloadSubtitles_preconditions (cfg : Config) (w : World)
    (media : Option list.LocalMedia) (lang : Option LangSet)
    (h : media = none ∨ lang = none
      ∨ ∃ m, media = some m ∧ ∀ x ∈ m.List.1, x.asVideo = none) :
    (DownloadSubtitles cfg w media lang).1 = []
    ∧ ∃ e, (DownloadSubtitles cfg w media lang).2 = Outcome.ret none (some e) := by
  cases media with
  | none => exact ⟨rfl, _, rfl⟩
  | some m =>
    cases lang with
    | none => exact ⟨rfl, _, rfl⟩
    | some L =>
      rcases h with h | h | ⟨m2, hm, hv⟩
      · cases h
      · cases h
      · cases hm
        have hv2 : m.media.filterMap types.LocalMedia.asVideo = [] := by
          rw [List.filterMap_eq_nil_iff]
          exact hv
        rw [DownloadSubtitles_no_video cfg w m L hv2]
        exact ⟨rfl, _, rfl⟩

/-- C1 at a catalog that holds a subtitle file only. -/
theorem DownloadSubtitles_preconditions_sample :
    (∀ x ∈ (list.LocalMedia.mk [types.LocalMedia.other "a.srt"]).List.1, x.asVideo = none)
    ∧ (DownloadSubtitles sampleConfig sampleWorld
        (some ⟨[types.LocalMedia.other "a.srt"]⟩) (some [SetItem.tag en])).1 = []
    ∧ ∃ e, (DownloadSubtitles sampleConfig sampleWorld
        (some ⟨[types.LocalMedia.other "a.srt"]⟩) (some [SetItem.tag en])).2
          = Outcome.ret none (some e) :=
  ⟨by decide,
   DownloadSubtitles_preconditions sampleConfig sampleWorld
    (some ⟨[types.LocalMedia.other "a.srt"]⟩) (some [SetItem.tag en])
    (Or.inr (Or.inr ⟨_, rfl, by decide⟩))⟩



/-! ## Selecting and saving the best candidate -/

/-- Every call of the plugin loop is the run of a plugin on the subtitle. -/
theorem execPluginsLoop_events (w : World) (s : LocalSubtitle) (ps : List plugins.Plugin) :
    ∀ e ∈ (execPluginsLoop w s ps).1, ∃ q, e = Event.Run q s := by
  induction ps with
  | nil => simp [execPluginsLoop]
  | cons q qs ih =>
    intro e he
    cases hq : (q.Run w s).2 with
    | none =>
      simp only [execPluginsLoop, hq, emit_fst, List.mem_append] at he
      rcases he with he | he
      · simp only [plugins.Plugin.Run, List.mem_singleton] at he
        exact ⟨q, he⟩
      · exact ih e he
    | some x =>
      simp only [execPluginsLoop, hq] at he
      simp only [plugins.Plugin.Run, List.mem_singleton] at he
      exact ⟨q, he⟩

/-- The six ways `downloadBestSubtitle` ends, each with the calls it has made. -/
theorem downloadBestSubtitle_cases (cfg : Config) (w : World) (m : types.Video)
    (l : List Subtitle) :
    (RateByMedia l m cfg.Evaluator = []
      ∧ downloadBestSubtitle cfg w m l
          = ([], Saved.err (Error.new "no subtitles satisfied media")))
    ∨ (∃ r rs, RateByMedia l m cfg.Evaluator = r :: rs
      ∧ (Best r rs).Score < threshold cfg
      ∧ downloadBestSubtitle cfg w m l = ([], Saved.err (Error.scoreTooLow (Best r rs).Score)))
    ∨ (∃ r rs x, RateByMedia l m cfg.Evaluator = r :: rs
      ∧ ¬ (Best r rs).Score < threshold cfg
      ∧ (Best r rs).Subtitle = Subtitle.loc x
      ∧ downloadBestSubtitle cfg w m l = ([], Saved.exit))
    ∨ (∃ r rs onl e, RateByMedia l m cfg.Evaluator = r :: rs
      ∧ ¬ (Best r rs).Score < threshold cfg
      ∧ (Best r rs).Subtitle = Subtitle.online onl
      ∧ w.Download onl = .error e
      ∧ downloadBestSubtitle cfg w m l = ([Event.Download onl], Saved.err e))
    ∨ (∃ r rs onl srt e, RateByMedia l m cfg.Evaluator = r :: rs
      ∧ ¬ (Best r rs).Score < threshold cfg
      ∧ (Best r rs).Subtitle = Subtitle.online onl
      ∧ w.Download onl = .ok srt
      ∧ w.SaveSubtitle m srt onl.lang = .error e
      ∧ downloadBestSubtitle cfg w m l
          = ([Event.Download onl, Event.SaveSubtitle m srt onl.lang], Saved.err e))
    ∨ (∃ r rs onl srt saved, RateByMedia l m cfg.Evaluator = r :: rs
      ∧ ¬ (Best r rs).Score < threshold cfg
      ∧ (Best r rs).Subtitle = Subtitle.online onl
      ∧ w.Download onl = .ok srt
      ∧ w.SaveSubtitle m srt onl.lang = .ok saved
      ∧ downloadBestSubtitle cfg w m l
          = ([Event.Download onl, Event.SaveSubtitle m srt onl.lang]
                ++ (execPluginsOnSubtitle cfg w saved).1,
              match (execPluginsOnSubtitle cfg w saved).2 with
              | some e => Saved.err e
              | none => Saved.ok saved)) := by
  unfold downloadBestSubtitle
  cases hr : RateByMedia l m cfg.Evaluator with
  | nil => exact Or.inl ⟨rfl, rfl⟩
  | cons r rs =>
    right
    by_cases hlow : (Best r rs).Score < threshold cfg
    · left
      exact ⟨r, rs, rfl, hlow, by simp [hlow]⟩
    · right
      cases hb : (Best r rs).Subtitle with
      | loc x =>
        left
        exact ⟨r, rs, x, rfl, hlow, hb, by simp [hlow, hb]⟩
      | online onl =>
        right
        cases hd : w.Download onl with
        | error e =>
          left
          exact ⟨r, rs, onl, e, rfl, hlow, hb, hd, by simp [hlow, hb, hd]⟩
        | ok srt =>
          right
          cases hs : w.SaveSubtitle m srt onl.lang with
          | error e =>
            left
            exact ⟨r, rs, onl, srt, e, rfl, hlow, hb, hd, hs, by simp [hlow, hb, hd, hs]⟩
          | ok saved =>
            right
            refine ⟨r, rs, onl, srt, saved, rfl, hlow, hb, hd, hs, ?_⟩
            cases hp : (execPluginsOnSubtitle cfg w saved).2 with
            | some e => simp [hlow, hb, hd, hs, hp, emit]
            | none => simp [hlow, hb, hd, hs, hp, emit]

/-- What a successful `downloadBestSubtitle` has done: the best rated candidate is not
below the threshold, is an online subtitle, was downloaded and saved, and every plugin
succeeded on the saved file. -/
theorem downloadBestSubtitle_ok (cfg : Config) (w : World) (m : types.Video)
    (l : List Subtitle) (s : LocalSubtitle)
    (h : (downloadBestSubtitle cfg w m l).2 = Saved.ok s) :
    ∃ r rs onl srt, RateByMedia l m cfg.Evaluator = r :: rs
      ∧ ¬ (Best r rs).Score < threshold cfg
      ∧ (Best r rs).Subtitle = Subtitle.online onl
      ∧ w.Download onl = .ok srt
      ∧ w.SaveSubtitle m srt onl.lang = .ok s
      ∧ (execPluginsOnSubtitle cfg w s).2 = none := by
  rcases downloadBestSubtitle_cases cfg w m l with
    ⟨_, h1⟩ | ⟨r, rs, _, _, h1⟩ | ⟨r, rs, x, _, _, _, h1⟩ | ⟨r, rs, onl, e, _, _, _, _, h1⟩
    | ⟨r, rs, onl, srt, e, _, _, _, _, _, h1⟩ | ⟨r, rs, onl, srt, saved, hr, hlow, hb, hd, hs, h1⟩
  · rw [h1] at h; cases h
  · rw [h1] at h; cases h
  · rw [h1] at h; cases h
  · rw [h1] at h; cases h
  · rw [h1] at h; cases h
  · rw [h1] at h
    cases hp : (execPluginsOnSubtitle cfg w saved).2 with
    | some e => simp [hp] at h
    | none =>
      simp only [hp] at h
      injection h with h
      subst h
      exact ⟨r, rs, onl, srt, hr, hlow, hb, hd, hs, hp⟩

/-- A save call of `downloadBestSubtitle` is for the best rated candidate, which is not
below the threshold. -/
theorem downloadBestSubtitle_save (cfg : Config) (w : World) (m : types.Video)
    (l : List Subtitle) (m2 : types.Video) (srt : Srt) (lang : Tag)
    (h : Event.SaveSubtitle m2 srt lang ∈ (downloadBestSubtitle cfg w m l).1) :
    ∃ r rs onl, RateByMedia l m cfg.Evaluator = r :: rs
      ∧ ¬ (Best r rs).Score < threshold cfg
      ∧ (Best r rs).Subtitle = Subtitle.online onl
      ∧ w.Download onl = .ok srt ∧ m2 = m ∧ lang = onl.lang := by
  rcases downloadBestSubtitle_cases cfg w m l with
    ⟨_, h1⟩ | ⟨r, rs, _, _, h1⟩ | ⟨r, rs, x, _, _, _, h1⟩ | ⟨r, rs, onl, e, _, _, _, _, h1⟩
    | ⟨r, rs, onl, srt2, e, hr, hlow, hb, hd, hs, h1⟩
    | ⟨r, rs, onl, srt2, saved, hr, hlow, hb, hd, hs, h1⟩
  · rw [h1] at h; simp at h
  · rw [h1] at h; simp at h
  · rw [h1] at h; simp at h
  · rw [h1] at h; simp at h
  · rw [h1] at h
    simp only [List.mem_cons, List.mem_singleton, List.not_mem_nil, or_false] at h
    rcases h with h | h
    · cases h
    · injection h with h2 h3 h4
      subst h2 h3 h4
      exact ⟨r, rs, onl, hr, hlow, hb, hd, rfl, rfl⟩
  · rw [h1] at h
    simp only [List.cons_append, List.nil_append, List.mem_cons] at h
    rcases h with h | h | h
    · cases h
    · injection h with h2 h3 h4
      subst h2 h3 h4
      exact ⟨r, rs, onl, hr, hlow, hb, hd, rfl, rfl⟩
    · obtain ⟨q, hq⟩ := execPluginsLoop_events w saved cfg.Plugins _ h
      cases hq

/-- Putting events in front twice. -/
theorem emit_emit {α : Type} (a b : List Event) (r : List Event × α) :
    emit a (emit b r) = emit (a ++ b) r := by
  simp [emit, List.append_assoc]

/-! ## The loop over the missing languages -/

/-- The language loop handles its first language and then the remaining ones. -/
theorem langLoop_cons (cfg : Config) (w : World) (item : types.Video) (subs : List Subtitle)
    (err : Option Error) (l : SetItem) (rest : List SetItem)
    (result : Option (List LocalSubtitle)) :
    langLoop cfg w item subs err (l :: rest) result
      = andThen (langLoop cfg w item subs err [l] result)
          (langLoop cfg w item subs err rest) := by
  cases hl : l.asTag with
  | none => simp [langLoop, hl, andThen]
  | some t =>
    cases hdry : cfg.Dry with
    | true => simp [langLoop, hl, andThen, hdry, emit]
    | false =>
      by_cases hempty : FilterLanguage subs t = []
      · simp [langLoop, hl, andThen, hdry, hempty, emit]
      · cases hd : (downloadBestSubtitle cfg w item (FilterLanguage subs t)).2 with
        | err e =>
          cases hs : cfg.Strict with
          | true => simp [langLoop, hl, andThen, hdry, hempty, hd, hs, emit]
          | false => simp [langLoop, hl, andThen, hdry, hempty, hd, hs, emit]
        | exit => simp [langLoop, hl, andThen, hdry, hempty, hd, emit]
        | ok sub => simp [langLoop, hl, andThen, hdry, hempty, hd, emit]

/-- A language-set element that is no tag ends the function with the value of `err`. -/
theorem langLoop_one_other (cfg : Config) (w : World) (item : types.Video)
    (subs : List Subtitle) (err : Option Error) (l : SetItem)
    (result : Option (List LocalSubtitle)) (hl : l.asTag = none) :
    langLoop cfg w item subs err [l] result
      = (pause cfg, Flow.stop (Outcome.ret none err)) := by
  simp [langLoop, hl]

/-- In a dry run a language only pauses. -/
theorem langLoop_one_dry (cfg : Config) (w : World) (item : types.Video)
    (subs : List Subtitle) (err : Option Error) (l : SetItem) (t : Tag)
    (result : Option (List LocalSubtitle)) (hl : l.asTag = some t) (hdry : cfg.Dry = true) :
    langLoop cfg w item subs err [l] result = (pause cfg, Flow.next result) := by
  simp [langLoop, hl, hdry, emit]

/-- A language without candidate is passed over. -/
theorem langLoop_one_empty (cfg : Config) (w : World) (item : types.Video)
    (subs : List Subtitle) (err : Option Error) (l : SetItem) (t : Tag)
    (result : Option (List LocalSubtitle)) (hl : l.asTag = some t)
    (hempty : FilterLanguage subs t = []) :
    langLoop cfg w item subs err [l] result = (pause cfg, Flow.next result) := by
  cases hdry : cfg.Dry with
  | true => exact langLoop_one_dry cfg w item subs err l t result hl hdry
  | false => simp [langLoop, hl, hdry, hempty, emit]

/-- A language with candidates, outside a dry run: the unit is `downloadBestSubtitle`
and its result decides how the loop goes on. -/
theorem langLoop_one_unit (cfg : Config) (w : World) (item : types.Video)
    (subs : List Subtitle) (err : Option Error) (l : SetItem) (t : Tag)
    (result : Option (List LocalSubtitle)) (hl : l.asTag = some t)
    (hdry : cfg.Dry = false) (hne : FilterLanguage subs t ≠ []) :
    langLoop cfg w item subs err [l] result
      = (pause cfg ++ (downloadBestSubtitle cfg w item (FilterLanguage subs t)).1,
          match (downloadBestSubtitle cfg w item (FilterLanguage subs t)).2 with
          | Saved.err e =>
            if cfg.Strict then Flow.stop (Outcome.ret none (some e)) else Flow.next result
          | Saved.exit => Flow.stop Outcome.exit
          | Saved.ok sub => Flow.next (goAppend result sub)) := by
  cases hd : (downloadBestSubtitle cfg w item (FilterLanguage subs t)).2 with
  | err e =>
    cases hs : cfg.Strict with
    | true => simp [langLoop, hl, hdry, hne, hd, hs, emit]
    | false => simp [langLoop, hl, hdry, hne, hd, hs, emit]
  | exit => simp [langLoop, hl, hdry, hne, hd, emit]
  | ok sub => simp [langLoop, hl, hdry, hne, hd, emit]

/-- A loop segment that ran to its end is continued by the next segment. -/
theorem langLoop_append (cfg : Config) (w : World) (item : types.Video)
    (subs : List Subtitle) (err : Option Error) (pre post : List SetItem)
    (result acc : Option (List LocalSubtitle))
    (h : (langLoop cfg w item subs err pre result).2 = Flow.next acc) :
    langLoop cfg w item subs err (pre ++ post) result
      = emit (langLoop cfg w item subs err pre result).1
          (langLoop cfg w item subs err post acc) := by
  induction pre generalizing result with
  | nil =>
    simp only [langLoop] at h
    injection h with h
    subst h
    simp [langLoop, emit]
  | cons l ls ih =>
    rw [langLoop_cons] at h
    rw [List.cons_append, langLoop_cons cfg w item subs err l (ls ++ post),
      langLoop_cons cfg w item subs err l ls]
    cases hstep : (langLoop cfg w item subs err [l] result).2 with
    | next r =>
      simp only [andThen, hstep, emit_snd] at h
      simp only [andThen, hstep]
      rw [ih r h, emit_emit]
      simp [emit]
    | stop o =>
      simp [andThen, hstep] at h

/-! ## The loop over the items -/

/-- The item loop handles its first item and then the remaining ones. -/
theorem itemLoop_cons (cfg : Config) (w : World) (lang : LangSet) (i : Nat)
    (item : types.Video) (rest : List types.Video) (result : Option (List LocalSubtitle)) :
    itemLoop cfg w lang i (item :: rest) result
      = andThen (itemLoop cfg w lang i [item] result) (itemLoop cfg w lang (i + 1) rest) := by
  cases hex : w.ExistingSubtitles item with
  | error e => simp [itemLoop, hex, andThen]
  | ok cursubs =>
    by_cases hmiss : (Difference lang (LanguageSet cursubs)).Size = 0
    · simp [itemLoop, hex, hmiss, andThen, emit]
    · cases hs : (searchStep cfg w item).2 with
      | stop o => simp [itemLoop, hex, hmiss, hs, andThen]
      | skip => simp [itemLoop, hex, hmiss, hs, andThen, emit]
      | subs found e =>
        cases hl : (langLoop cfg w item (HearingImpaired found cfg.Impaired) e
            (w.ListOrder i (Difference lang (LanguageSet cursubs))) result).2 with
        | stop o => simp [itemLoop, hex, hmiss, hs, hl, andThen]
        | next r => simp [itemLoop, hex, hmiss, hs, hl, andThen, emit]

/-- An item whose subtitles cannot be listed ends the function with that error. -/
theorem itemLoop_one_unreadable (cfg : Config) (w : World) (lang : LangSet) (i : Nat)
    (item : types.Video) (result : Option (List LocalSubtitle)) (e : Error)
    (hex : w.ExistingSubtitles item = .error e) :
    itemLoop cfg w lang i [item] result
      = ([Event.ExistingSubtitles item], Flow.stop (Outcome.ret none (some e))) := by
  simp [itemLoop, hex]

/-- An item that misses no language is passed over after `ExistingSubtitles`. -/
theorem itemLoop_one_covered (cfg : Config) (w : World) (lang : LangSet) (i : Nat)
    (item : types.Video) (result : Option (List LocalSubtitle)) (cursubs : List Subtitle)
    (hex : w.ExistingSubtitles item = .ok cursubs)
    (hmiss : Difference lang (LanguageSet cursubs) = []) :
    itemLoop cfg w lang i [item] result
      = ([Event.ExistingSubtitles item], Flow.next result) := by
  simp [itemLoop, hex, hmiss, LangSet.Size, emit]

/-- An item that misses a language: the search, then the language loop over the missing
languages in the order in which `List()` yields them. -/
theorem itemLoop_one_missing (cfg : Config) (w : World) (lang : LangSet) (i : Nat)
    (item : types.Video) (result : Option (List LocalSubtitle)) (cursubs : List Subtitle)
    (hex : w.ExistingSubtitles item = .ok cursubs)
    (hmiss : Difference lang (LanguageSet cursubs) ≠ []) :
    itemLoop cfg w lang i [item] result
      = match (searchStep cfg w item).2 with
        | Searched.stop o =>
          (Event.ExistingSubtitles item :: (searchStep cfg w item).1, Flow.stop o)
        | Searched.skip =>
          (Event.ExistingSubtitles item :: (searchStep cfg w item).1, Flow.next result)
        | Searched.subs found e =>
          emit (Event.ExistingSubtitles item :: (searchStep cfg w item).1)
            (langLoop cfg w item (HearingImpaired found cfg.Impaired) e
              (w.ListOrder i (Difference lang (LanguageSet cursubs))) result) := by
  have hsz : ¬ (Difference lang (LanguageSet cursubs)).Size = 0 := by
    simpa [LangSet.Size] using hmiss
  cases hs : (searchStep cfg w item).2 with
  | stop o => simp [itemLoop, hex, hsz, hs]
  | skip => simp [itemLoop, hex, hsz, hs, emit]
  | subs found e =>
    cases hl : (langLoop cfg w item (HearingImpaired found cfg.Impaired) e
        (w.ListOrder i (Difference lang (LanguageSet cursubs))) result).2 with
    | stop o =>
      simp only [itemLoop, hex, hsz, hs, hl, if_false, emit]
    | next r =>
      simp only [itemLoop, hex, hsz, hs, hl, if_false, emit]
      simp [hl]

/-- A segment of items that ran to its end is continued by the next segment. -/
theorem itemLoop_append (cfg : Config) (w : World) (lang : LangSet) (i : Nat)
    (pre post : List types.Video) (result acc : Option (List LocalSubtitle))
    (h : (itemLoop cfg w lang i pre result).2 = Flow.next acc) :
    itemLoop cfg w lang i (pre ++ post) result
      = emit (itemLoop cfg w lang i pre result).1
          (itemLoop cfg w lang (i + pre.length) post acc) := by
  induction pre generalizing result i with
  | nil =>
    simp only [itemLoop] at h
    injection h with h
    subst h
    simp [itemLoop, emit]
  | cons l ls ih =>
    rw [itemLoop_cons] at h
    rw [List.cons_append, itemLoop_cons cfg w lang i l (ls ++ post),
      itemLoop_cons cfg w lang i l ls]
    cases hstep : (itemLoop cfg w lang i [l] result).2 with
    | next r =>
      simp only [andThen, hstep, emit_snd] at h
      simp only [andThen, hstep]
      rw [ih (i + 1) r h, emit_emit]
      have hidx : i + 1 + ls.length = i + (l :: ls).length := by
        simp only [List.length_cons]; omega
      rw [hidx]
      simp [emit]
    | stop o =>
      simp [andThen, hstep] at h

/-- The search of an item outside a dry run. -/
theorem searchStep_live (cfg : Config) (w : World) (item : types.Video)
    (hdry : cfg.Dry = false) :
    searchStep cfg w item
      = ([Event.SearchSubtitles item],
          match w.SearchSubtitles item with
          | .error e =>
            if cfg.Strict then Searched.stop (Outcome.ret none (some e)) else Searched.skip
          | .ok found => Searched.subs (found.map Subtitle.online) none) := by
  cases hs : w.SearchSubtitles item with
  | error e =>
    cases hst : cfg.Strict with
    | true => simp [searchStep, hdry, hs, hst]
    | false => simp [searchStep, hdry, hs, hst]
  | ok found => simp [searchStep, hdry, hs, NewSubtitlesFromInterface]

/-- The search of an item in a dry run: no call, an empty pool. -/
theorem searchStep_dry (cfg : Config) (w : World) (item : types.Video)
    (hdry : cfg.Dry = true) :
    searchStep cfg w item = ([], Searched.subs [] none) := by
  simp [searchStep, hdry, Subtitles]


/-! ## The run as a whole -/

/-- The videos of a catalog, in catalog order. -/
theorem FilterVideo_len_ne (m : list.LocalMedia)
    (hv : m.media.filterMap types.LocalMedia.asVideo ≠ []) : ¬ m.FilterVideo.1.Len = 0 := by
  have h1 := FilterVideo_list m
  unfold list.Video.Len
  unfold list.Video.List at h1
  rw [h1]
  simpa using hv

/-- Past the preconditions `DownloadSubtitles` filters the videos and runs the item
loop on what is left. -/
theorem DownloadSubtitles_run (cfg : Config) (w : World) (m : list.LocalMedia)
    (lang : LangSet) (hv : m.media.filterMap types.LocalMedia.asVideo ≠ []) :
    DownloadSubtitles cfg w (some m) (some lang)
      = match (FilterMissingSubs w lang (m.media.filterMap types.LocalMedia.asVideo)).2 with
        | .error e =>
          ((FilterMissingSubs w lang (m.media.filterMap types.LocalMedia.asVideo)).1,
            Outcome.ret none (some e))
        | .ok video =>
          ((FilterMissingSubs w lang (m.media.filterMap types.LocalMedia.asVideo)).1
              ++ (itemLoop cfg w lang 0 video none).1,
            match (itemLoop cfg w lang 0 video none).2 with
            | Flow.stop o => o
            | Flow.next result => Outcome.ret result none) := by
  have hlen := FilterVideo_len_ne m hv
  have hlist : m.FilterVideo.1.List = m.media.filterMap types.LocalMedia.asVideo :=
    FilterVideo_list m
  simp only [DownloadSubtitles, hlen, if_false, hlist]
  cases hf : (FilterMissingSubs w lang (m.media.filterMap types.LocalMedia.asVideo)).2 with
  | error e => rfl
  | ok video =>
    simp only [NewVideo, list.Video.List]
    cases hi : (itemLoop cfg w lang 0 video none).2 with
    | stop o => rfl
    | next r => rfl

/-- The calls of `FilterMissingSubs` are `ExistingSubtitles` calls. -/
theorem FilterMissingSubs_events (w : World) (lang : LangSet) (videos : List types.Video) :
    ∀ e ∈ (FilterMissingSubs w lang videos).1, e.isAcquisition = false := by
  induction videos with
  | nil => simp [FilterMissingSubs]
  | cons v vs ih =>
    intro e he
    cases hex : w.ExistingSubtitles v with
    | error x =>
      simp [FilterMissingSubs, hex] at he
      subst he; rfl
    | ok cur =>
      cases hr : (FilterMissingSubs w lang vs).2 with
      | error x =>
        simp [FilterMissingSubs, hex, hr] at he
        rcases he with he | he
        · subst he; rfl
        · exact ih e he
      | ok keep =>
        by_cases hsz : (Difference lang (LanguageSet cur)).Size > 0
        · simp [FilterMissingSubs, hex, hr, hsz] at he
          rcases he with he | he
          · subst he; rfl
          · exact ih e he
        · simp [FilterMissingSubs, hex, hr, hsz] at he
          rcases he with he | he
          · subst he; rfl
          · exact ih e he

/-- When every video can list its subtitles, `FilterMissingSubs` asks each one once and
keeps those that miss a language. -/
theorem FilterMissingSubs_ok (w : World) (lang : LangSet) (videos : List types.Video)
    (hex : ∀ v ∈ videos, ∃ cur, w.ExistingSubtitles v = .ok cur) :
    FilterMissingSubs w lang videos
      = (videos.map Event.ExistingSubtitles,
          .ok (videos.filter (fun v => decide (missingLangs w lang v ≠ [])))) := by
  induction videos with
  | nil => simp [FilterMissingSubs]
  | cons v vs ih =>
    obtain ⟨cur, hcur⟩ := hex v (List.mem_cons_self _ _)
    have ih2 := ih (fun x hx => hex x (List.mem_cons_of_mem _ hx))
    by_cases hmiss : Difference lang (LanguageSet cur) = []
    · simp [FilterMissingSubs, hcur, ih2, missingLangs, hmiss, LangSet.Size]
    · have hpos : 0 < (Difference lang (LanguageSet cur)).length :=
        List.length_pos.mpr hmiss
      simp [FilterMissingSubs, hcur, ih2, missingLangs, hmiss, LangSet.Size, hpos]

/-- The videos `FilterMissingSubs` keeps miss a language. -/
theorem FilterMissingSubs_kept (w : World) (lang : LangSet) (videos keep : List types.Video)
    (h : (FilterMissingSubs w lang videos).2 = .ok keep) :
    ∀ v ∈ keep, ∀ cur, w.ExistingSubtitles v = .ok cur →
      Difference lang (LanguageSet cur) ≠ [] := by
  induction videos generalizing keep with
  | nil =>
    simp [FilterMissingSubs] at h
    subst h
    simp
  | cons x xs ih =>
    cases hex : w.ExistingSubtitles x with
    | error e => simp [FilterMissingSubs, hex] at h
    | ok cx =>
      cases hr : (FilterMissingSubs w lang xs).2 with
      | error e => simp [FilterMissingSubs, hex, hr] at h
      | ok keep2 =>
        have ih2 := ih keep2 hr
        by_cases hsz : (Difference lang (LanguageSet cx)).Size > 0
        · simp [FilterMissingSubs, hex, hr, hsz] at h
          subst h
          intro v hv cur hcur
          rcases List.mem_cons.mp hv with hv | hv
          · subst hv
            rw [hex] at hcur
            injection hcur with hcur
            subst hcur
            intro h0
            rw [h0] at hsz
            simp [LangSet.Size] at hsz
          · exact ih2 v hv cur hcur
        · simp [FilterMissingSubs, hex, hr, hsz] at h
          subst h
          exact ih2

/-! ## Dry runs -/

/-- The pause is no acquisition call. -/
theorem pause_events (cfg : Config) : ∀ e ∈ pause cfg, e.isAcquisition = false := by
  intro e he
  unfold pause at he
  split at he
  · simp at he; subst he; rfl
  · simp at he

/-- In a dry run the language loop only pauses; it hands on the result it was given or
returns nil with the value of `err`. -/
theorem langLoop_dry (cfg : Config) (w : World) (item : types.Video) (subs : List Subtitle)
    (err : Option Error) (hdry : cfg.Dry = true) (langs : List SetItem)
    (result : Option (List LocalSubtitle)) :
    (∀ e ∈ (langLoop cfg w item subs err langs result).1, e.isAcquisition = false)
    ∧ ((langLoop cfg w item subs err langs result).2 = Flow.next result
      ∨ (langLoop cfg w item subs err langs result).2 = Flow.stop (Outcome.ret none err)) := by
  induction langs with
  | nil => simp [langLoop]
  | cons l ls ih =>
    rw [langLoop_cons]
    cases hl : l.asTag with
    | none =>
      rw [langLoop_one_other cfg w item subs err l result hl]
      simp only [andThen]
      exact ⟨pause_events cfg, Or.inr trivial⟩
    | some t =>
      rw [langLoop_one_dry cfg w item subs err l t result hl hdry]
      simp only [andThen, emit_fst, emit_snd]
      refine ⟨?_, ih.2⟩
      intro e he
      rcases List.mem_append.mp he with he | he
      · exact pause_events cfg e he
      · exact ih.1 e he

/-- In a dry run the item loop makes no acquisition call; it hands on the result it was
given or returns nil, with a nil error when every item can list its subtitles. -/
theorem itemLoop_dry (cfg : Config) (w : World) (lang : LangSet) (hdry : cfg.Dry = true)
    (i : Nat) (items : List types.Video) (result : Option (List LocalSubtitle)) :
    (∀ e ∈ (itemLoop cfg w lang i items result).1, e.isAcquisition = false)
    ∧ ((∀ v ∈ items, ∃ cur, w.ExistingSubtitles v = .ok cur) →
        (itemLoop cfg w lang i items result).2 = Flow.next result
        ∨ (itemLoop cfg w lang i items result).2 = Flow.stop (Outcome.ret none none)) := by
  induction items generalizing i with
  | nil => simp [itemLoop]
  | cons item rest ih =>
    rw [itemLoop_cons]
    cases hex : w.ExistingSubtitles item with
    | error x =>
      rw [itemLoop_one_unreadable cfg w lang i item result x hex]
      simp only [andThen]
      refine ⟨?_, ?_⟩
      · intro e he
        simp at he; subst he; rfl
      · intro hall
        obtain ⟨cur, hcur⟩ := hall item (List.mem_cons_self _ _)
        rw [hex] at hcur
        cases hcur
    | ok cur =>
      have ihok : (∀ v ∈ item :: rest, ∃ cur, w.ExistingSubtitles v = .ok cur) →
          (itemLoop cfg w lang (i + 1) rest result).2 = Flow.next result
          ∨ (itemLoop cfg w lang (i + 1) rest result).2
              = Flow.stop (Outcome.ret none none) :=
        fun hall => (ih (i + 1)).2 (fun v hv => hall v (List.mem_cons_of_mem _ hv))
      by_cases hmiss : Difference lang (LanguageSet cur) = []
      · rw [itemLoop_one_covered cfg w lang i item result cur hex hmiss]
        simp only [andThen, emit_fst, emit_snd]
        refine ⟨?_, ihok⟩
        intro e he
        rcases List.mem_append.mp he with he | he
        · simp at he; subst he; rfl
        · exact (ih (i + 1)).1 e he
      · rw [itemLoop_one_missing cfg w lang i item result cur hex hmiss,
          searchStep_dry cfg w item hdry]
        simp only []
        have hl := langLoop_dry cfg w item (HearingImpaired [] cfg.Impaired) none hdry
          (w.ListOrder i (Difference lang (LanguageSet cur))) result
        rcases hl.2 with hnext | hstop
        · simp only [andThen, emit_snd, hnext, emit_fst]
          refine ⟨?_, ihok⟩
          intro e he
          rcases List.mem_append.mp he with he | he
          · rcases List.mem_append.mp he with he | he
            · simp at he; subst he; rfl
            · exact hl.1 e he
          · exact (ih (i + 1)).1 e he
        · simp only [andThen, emit_snd, hstop, emit_fst]
          refine ⟨?_, fun _ => Or.inr trivial⟩
          intro e he
          rcases List.mem_append.mp he with he | he
          · simp at he; subst he; rfl
          · exact hl.1 e he

/-- C4 (as stated, refuted): in a dry run over a catalog that passes the preconditions,
a video that cannot list its subtitles makes `DownloadSubtitles` return that error; the
item loop alone does the same. -/
theorem DownloadSubtitles_dry_unreadable :
    dryConfig.Dry = true
    ∧ DownloadSubtitles dryConfig unreadableWorld (some sampleCatalog) (some [SetItem.tag en])
        = ([Event.ExistingSubtitles video1], Outcome.ret none (some (Error.external 13)))
    ∧ itemLoop dryConfig unreadableWorld [SetItem.tag en] 0 [video1, video2] none
        = ([Event.ExistingSubtitles video1],
            Flow.stop (Outcome.ret none (some (Error.external 13)))) := by
  decide

/-- C4 (amended): in a dry run, whatever the catalog, the language set, the provider and
the strict flag, `DownloadSubtitles` makes no search, download, save or plugin call; and
when the preconditions hold and every video can list its subtitles it returns a nil
error with an empty (nil) result. -/
theorem DownloadSubtitles_dry (cfg : Config) (w : World) (media : Option list.LocalMedia)
    (lang : Option LangSet) (hdry : cfg.Dry = true) :
    (∀ e ∈ (DownloadSubtitles cfg w media lang).1, e.isAcquisition = false)
    ∧ (∀ m L, media = some m → lang = some L →
        m.media.filterMap types.LocalMedia.asVideo ≠ [] →
        (∀ v ∈ m.media.filterMap types.LocalMedia.asVideo,
          ∃ cur, w.ExistingSubtitles v = .ok cur) →
        (DownloadSubtitles cfg w media lang).2 = Outcome.ret none none) := by
  cases media with
  | none => exact ⟨by simp [DownloadSubtitles], fun m L h => by cases h⟩
  | some m =>
    cases lang with
    | none => exact ⟨by simp [DownloadSubtitles], fun m L _ h => by cases h⟩
    | some L =>
      by_cases hv : m.media.filterMap types.LocalMedia.asVideo = []
      · have h1 := DownloadSubtitles_no_video cfg w m L hv
        refine ⟨by rw [h1]; simp, ?_⟩
        intro m2 L2 hm _ hne
        cases hm
        exact absurd hv hne
      · rw [DownloadSubtitles_run cfg w m L hv]
        refine ⟨?_, ?_⟩
        · cases hf : (FilterMissingSubs w L
              (m.media.filterMap types.LocalMedia.asVideo)).2 with
          | error e =>
            simp only []
            exact FilterMissingSubs_events w L _
          | ok video =>
            simp only []
            intro e he
            rcases List.mem_append.mp he with he | he
            · exact FilterMissingSubs_events w L _ e he
            · exact (itemLoop_dry cfg w L hdry 0 video none).1 e he
        · intro m2 L2 hm hL _ hall
          cases hm
          cases hL
          rw [FilterMissingSubs_ok w L _ hall]
          simp only []
          have hsub : ∀ v ∈ (m.media.filterMap types.LocalMedia.asVideo).filter
              (fun v => decide (missingLangs w L v ≠ [])),
              ∃ cur, w.ExistingSubtitles v = .ok cur :=
            fun v hv2 => hall v (List.mem_of_mem_filter hv2)
          rcases (itemLoop_dry cfg w L hdry 0 _ none).2 hsub with h | h
          · rw [h]
          · rw [h]

/-- C4 (amended) at the sample catalog in a dry run. -/
theorem DownloadSubtitles_dry_sample :
    dryConfig.Dry = true
    ∧ (∀ e ∈ (DownloadSubtitles dryConfig sampleWorld (some sampleCatalog)
          (some [SetItem.tag en, SetItem.tag da])).1, e.isAcquisition = false)
    ∧ (DownloadSubtitles dryConfig sampleWorld (some sampleCatalog)
          (some [SetItem.tag en, SetItem.tag da])).2 = Outcome.ret none none :=
  ⟨rfl,
   (DownloadSubtitles_dry dryConfig sampleWorld (some sampleCatalog)
      (some [SetItem.tag en, SetItem.tag da]) rfl).1,
   (DownloadSubtitles_dry dryConfig sampleWorld (some sampleCatalog)
      (some [SetItem.tag en, SetItem.tag da]) rfl).2 sampleCatalog
      [SetItem.tag en, SetItem.tag da] rfl rfl (by decide) (fun _ _ => ⟨[], rfl⟩)⟩


/-! ## Items that miss no language -/

/-- C5 (as stated, refuted): a catalog without any video has every video item covered,
and `DownloadSubtitles` returns an error for it. -/
theorem DownloadSubtitles_covered_no_video :
    (list.LocalMedia.mk [types.LocalMedia.other "/media/Alien (1979).en.srt"]).media.filterMap
        types.LocalMedia.asVideo = []
    ∧ DownloadSubtitles sampleConfig coveredWorld
        (some ⟨[types.LocalMedia.other "/media/Alien (1979).en.srt"]⟩) (some [SetItem.tag en])
        = ([], Outcome.ret none (some (Error.new "no video media found in path"))) := by
  decide

/-- C5 (amended): when the existing subtitles of every video of the catalog cover every
wanted language, `DownloadSubtitles` makes no search, download, save or plugin call, and
when the catalog holds a video it asks each video once more for its subtitles and
returns a nil error with an empty (nil) result; in any catalog an item that misses no
language is passed over right after `ExistingSubtitles`, before any search. -/
theorem DownloadSubtitles_covered (cfg : Config) (w : World) (m : list.LocalMedia)
    (L : LangSet)
    (hcov : ∀ v ∈ m.media.filterMap types.LocalMedia.asVideo,
      ∃ cur, w.ExistingSubtitles v = .ok cur ∧ Difference L (LanguageSet cur) = []) :
    (∀ e ∈ (DownloadSubtitles cfg w (some m) (some L)).1, e.isAcquisition = false)
    ∧ (m.media.filterMap types.LocalMedia.asVideo ≠ [] →
        DownloadSubtitles cfg w (some m) (some L)
          = ((m.media.filterMap types.LocalMedia.asVideo).map Event.ExistingSubtitles,
              Outcome.ret none none))
    ∧ (∀ i item cur rest result, w.ExistingSubtitles item = .ok cur →
        Difference L (LanguageSet cur) = [] →
        itemLoop cfg w L i (item :: rest) result
          = emit [Event.ExistingSubtitles item] (itemLoop cfg w L (i + 1) rest result)) := by
  have hrun : m.media.filterMap types.LocalMedia.asVideo ≠ [] →
      DownloadSubtitles cfg w (some m) (some L)
        = ((m.media.filterMap types.LocalMedia.asVideo).map Event.ExistingSubtitles,
            Outcome.ret none none) := by
    intro hv
    have hall : ∀ v ∈ m.media.filterMap types.LocalMedia.asVideo,
        ∃ cur, w.ExistingSubtitles v = .ok cur := by
      intro v hv2
      obtain ⟨cur, hc, _⟩ := hcov v hv2
      exact ⟨cur, hc⟩
    have hnone : (m.media.filterMap types.LocalMedia.asVideo).filter
        (fun v => decide (missingLangs w L v ≠ [])) = [] := by
      rw [List.filter_eq_nil_iff]
      intro v hv2
      obtain ⟨cur, hc, hd⟩ := hcov v hv2
      simp [missingLangs, hc, hd]
    rw [DownloadSubtitles_run cfg w m L hv, FilterMissingSubs_ok w L _ hall, hnone]
    simp [itemLoop]
  refine ⟨?_, hrun, ?_⟩
  · by_cases hv : m.media.filterMap types.LocalMedia.asVideo = []
    · have h1 := DownloadSubtitles_no_video cfg w m L hv
      rw [h1]; simp
    · rw [hrun hv]
      intro e he
      simp only [List.mem_map] at he
      obtain ⟨v, _, hv2⟩ := he
      subst hv2; rfl
  · intro i item cur rest result hex hmiss
    rw [itemLoop_cons, itemLoop_one_covered cfg w L i item result cur hex hmiss]
    rfl

/-- C5 (amended) at the sample catalog when every video has an English subtitle. -/
theorem DownloadSubtitles_covered_sample :
    DownloadSubtitles sampleConfig coveredWorld (some sampleCatalog) (some [SetItem.tag en])
      = ([Event.ExistingSubtitles video1, Event.ExistingSubtitles video2],
          Outcome.ret none none) :=
  (DownloadSubtitles_covered sampleConfig coveredWorld sampleCatalog [SetItem.tag en]
    (fun v _ => ⟨[Subtitle.loc ⟨v.path ++ ".en.srt", en, false⟩], rfl, rfl⟩)).2.1
    (by decide)

/-! ## A language-set element that is no tag -/

/-- C8 (the defect): with a wanted language that is no `language.Tag`, the run stops at
that element and returns a nil result with a nil error, in a live run as in a dry run;
when a subtitle was saved for an earlier language it is left out of the result, and the
items that follow are not handled. -/
theorem DownloadSubtitles_non_tag :
    DownloadSubtitles sampleConfig sampleWorld (some sampleCatalog)
        (some [SetItem.other "en"])
      = ([Event.ExistingSubtitles video1, Event.ExistingSubtitles video2,
          Event.ExistingSubtitles video1, Event.SearchSubtitles video1],
          Outcome.ret none none)
    ∧ DownloadSubtitles dryConfig sampleWorld (some sampleCatalog)
        (some [SetItem.other "en"])
      = ([Event.ExistingSubtitles video1, Event.ExistingSubtitles video2,
          Event.ExistingSubtitles video1],
          Outcome.ret none none)
    ∧ DownloadSubtitles sampleConfig sampleWorld (some sampleCatalog)
        (some [SetItem.tag en, SetItem.other "da"])
      = ([Event.ExistingSubtitles video1, Event.ExistingSubtitles video2,
          Event.ExistingSubtitles video1, Event.SearchSubtitles video1,
          Event.Download cand1, Event.SaveSubtitle video1 ⟨"http://subs/1"⟩ en],
          Outcome.ret none none) := by
  decide

/-! ## Strict runs -/

/-- C2: in a strict live run, let the item loop have handled the items `pre` without
leaving, and let `item` be the next one, missing a language. When the search of `item`
fails with `e`, the run returns exactly `e` and its last call is that search. When the
search succeeds, the language loop has handled the languages `lpre` without leaving
and `downloadBestSubtitle` fails with `e` for the next language `l`, the run returns
exactly `e` and its last calls are those of that `downloadBestSubtitle`. In both cases
no call is made for the languages `lpost` and the items `post` that follow. The missing
languages are taken in the order in which `List()` yields them in that iteration,
whatever it is. -/
theorem DownloadSubtitles_strict (cfg : Config) (w : World) (m : list.LocalMedia)
    (L : LangSet) (pre post : List types.Video) (item : types.Video)
    (t0 t1 : List Event) (acc : Option (List LocalSubtitle)) (cur : List Subtitle)
    (hstrict : cfg.Strict = true) (hdry : cfg.Dry = false)
    (hf : FilterMissingSubs w L (m.media.filterMap types.LocalMedia.asVideo)
      = (t0, .ok (pre ++ item :: post)))
    (hpre : itemLoop cfg w L 0 pre none = (t1, Flow.next acc))
    (hex : w.ExistingSubtitles item = .ok cur) :
    (∀ e, w.SearchSubtitles item = .error e →
      DownloadSubtitles cfg w (some m) (some L)
        = (t0 ++ t1 ++ [Event.ExistingSubtitles item, Event.SearchSubtitles item],
            Outcome.ret none (some e)))
    ∧ (∀ found lpre l lpost t2 acc2 e, w.SearchSubtitles item = .ok found →
      w.ListOrder pre.length (Difference L (LanguageSet cur))
        = lpre ++ SetItem.tag l :: lpost →
      langLoop cfg w item (HearingImpaired (found.map Subtitle.online) cfg.Impaired) none
        lpre acc = (t2, Flow.next acc2) →
      FilterLanguage (HearingImpaired (found.map Subtitle.online) cfg.Impaired) l ≠ [] →
      (downloadBestSubtitle cfg w item
        (FilterLanguage (HearingImpaired (found.map Subtitle.online) cfg.Impaired) l)).2
          = Saved.err e →
      DownloadSubtitles cfg w (some m) (some L)
        = (t0 ++ t1 ++ [Event.ExistingSubtitles item, Event.SearchSubtitles item] ++ t2
            ++ pause cfg
            ++ (downloadBestSubtitle cfg w item
                (FilterLanguage (HearingImpaired (found.map Subtitle.online) cfg.Impaired)
                  l)).1,
            Outcome.ret none (some e))) := by
  have hv : m.media.filterMap types.LocalMedia.asVideo ≠ [] := by
    intro h0
    rw [h0] at hf
    simp [FilterMissingSubs] at hf
  have hmiss : Difference L (LanguageSet cur) ≠ [] :=
    FilterMissingSubs_kept w L _ (pre ++ item :: post) (by rw [hf]) item (by simp) cur hex
  have hpre2 : (itemLoop cfg w L 0 pre none).2 = Flow.next acc := by rw [hpre]
  have hloop : itemLoop cfg w L 0 (pre ++ item :: post) none
      = emit t1 (andThen (itemLoop cfg w L pre.length [item] acc)
          (itemLoop cfg w L (pre.length + 1) post)) := by
    rw [itemLoop_append cfg w L 0 pre (item :: post) none acc hpre2, hpre, Nat.zero_add,
      itemLoop_cons]
  have hone := itemLoop_one_missing cfg w L pre.length item acc cur hex hmiss
  rw [searchStep_live cfg w item hdry] at hone
  refine ⟨?_, ?_⟩
  · intro e hs
    rw [hs] at hone
    simp only [hstrict, if_true] at hone
    rw [DownloadSubtitles_run cfg w m L hv, hf]
    simp only []
    rw [hloop, hone]
    simp [andThen, emit]
  · intro found lpre l lpost t2 acc2 e hs hsplit hlpre hne hd
    rw [hs] at hone
    simp only [] at hone
    have hlpre2 : (langLoop cfg w item
        (HearingImpaired (found.map Subtitle.online) cfg.Impaired) none lpre acc).2
          = Flow.next acc2 := by rw [hlpre]
    have hlang : langLoop cfg w item
        (HearingImpaired (found.map Subtitle.online) cfg.Impaired) none
        (w.ListOrder pre.length (Difference L (LanguageSet cur))) acc
        = (t2 ++ (pause cfg ++ (downloadBestSubtitle cfg w item
              (FilterLanguage (HearingImpaired (found.map Subtitle.online) cfg.Impaired)
                l)).1),
            Flow.stop (Outcome.ret none (some e))) := by
      rw [hsplit, langLoop_append cfg w item _ none lpre (SetItem.tag l :: lpost) acc acc2
        hlpre2, hlpre, langLoop_cons,
        langLoop_one_unit cfg w item _ none (SetItem.tag l) l acc2 rfl hdry hne, hd]
      simp [andThen, emit, hstrict]
    rw [hlang] at hone
    rw [DownloadSubtitles_run cfg w m L hv, hf]
    simp only []
    rw [hloop, hone]
    simp [andThen, emit]

/-- C2 at the sample catalog in strict mode: a failing search of the first video, and a
failing download for the first language of the first video, end the run at once. -/
theorem DownloadSubtitles_strict_sample :
    DownloadSubtitles strictConfig searchFailWorld (some sampleCatalog)
        (some [SetItem.tag en])
      = ([Event.ExistingSubtitles video1, Event.ExistingSubtitles video2,
          Event.ExistingSubtitles video1, Event.SearchSubtitles video1],
          Outcome.ret none (some (Error.external 503)))
    ∧ DownloadSubtitles strictConfig sampleWorld (some sampleCatalog)
        (some [SetItem.tag da, SetItem.tag en])
      = ([Event.ExistingSubtitles video1, Event.ExistingSubtitles video2,
          Event.ExistingSubtitles video1, Event.SearchSubtitles video1,
          Event.Download cand3],
          Outcome.ret none (some (Error.external 404))) :=
  ⟨(DownloadSubtitles_strict strictConfig searchFailWorld sampleCatalog [SetItem.tag en]
      [] [video2] video1 [Event.ExistingSubtitles video1, Event.ExistingSubtitles video2] []
      none [] rfl rfl rfl rfl rfl).1
      (Error.external 503) rfl,
   (DownloadSubtitles_strict strictConfig sampleWorld sampleCatalog
      [SetItem.tag da, SetItem.tag en]
      [] [video2] video1 [Event.ExistingSubtitles video1, Event.ExistingSubtitles video2] []
      none [] rfl rfl rfl rfl rfl).2
      [cand1, cand2, cand3] [] da [SetItem.tag en] [] none (Error.external 404)
      rfl (by decide) (by decide) (by decide) (by decide)⟩


/-! ## Lenient runs -/

/-- The best rated subtitle is one of the rated subtitles. -/
theorem Best_mem (r : RatedSubtitle) (rs : List RatedSubtitle) : Best r rs ∈ r :: rs := by
  induction rs generalizing r with
  | nil => simp [Best]
  | cons x xs ih =>
    unfold Best
    split
    · exact List.mem_cons_of_mem _ (ih x)
    · have h := ih r
      rcases List.mem_cons.mp h with h | h
      · rw [h]; exact List.mem_cons_self _ _
      · exact List.mem_cons_of_mem _ (List.mem_cons_of_mem _ h)

/-- Rating the online candidates `cs` after the best so far `b` selects the candidate
that `List.argmax` selects. -/
theorem Best_foldl (f : OnlineSubtitle → ℚ) (cs : List OnlineSubtitle) (b : OnlineSubtitle) :
    ∃ c, List.foldl (List.argAux (fun x y => f y < f x)) (some b) cs = some c
      ∧ Best ⟨Subtitle.online b, f b⟩ (cs.map (fun x => ⟨Subtitle.online x, f x⟩))
          = ⟨Subtitle.online c, f c⟩ := by
  induction cs generalizing b with
  | nil => exact ⟨b, rfl, rfl⟩
  | cons x xs ih =>
    by_cases h : f b < f x
    · obtain ⟨c, hc1, hc2⟩ := ih x
      refine ⟨c, ?_, ?_⟩
      · simp only [List.foldl_cons, List.argAux, h, if_true]
        exact hc1
      · simp only [List.map_cons, Best, h, if_true]
        exact hc2
    · obtain ⟨c, hc1, hc2⟩ := ih b
      refine ⟨c, ?_, ?_⟩
      · simp only [List.foldl_cons, List.argAux, h, if_false]
        exact hc1
      · simp only [List.map_cons, Best, h, if_false]
        exact hc2

/-- The pool of a language, after the hearing-impaired filter, in terms of the
candidates found. -/
theorem pool_eq (found : List OnlineSubtitle) (hi : Bool) (l : Tag) :
    FilterLanguage (HearingImpaired (found.map Subtitle.online) hi) l
      = (found.filter (fun c => (hi || !c.hi) && decide (c.lang = l))).map Subtitle.online := by
  have hcongr : ∀ (p q : OnlineSubtitle → Bool), (∀ c, p c = q c) →
      found.filter p = found.filter q := by
    intro p q hpq
    have : p = q := funext hpq
    rw [this]
  cases hi with
  | true =>
    unfold FilterLanguage HearingImpaired
    rw [if_pos rfl, List.filter_map]
    congr 1
  | false =>
    unfold FilterLanguage HearingImpaired
    rw [if_neg (by simp), List.filter_map, List.filter_map, List.filter_filter]
    congr 1
    apply hcongr
    intro c
    simp [Subtitle.IsLang, Subtitle.Language, Subtitle.IsHI, Bool.and_comm]

/-- Every plugin succeeds exactly when the plugin pipeline returns nil. -/
theorem plugins_all_iff (cfg : Config) (w : World) (saved : LocalSubtitle) :
    cfg.Plugins.all (fun p => (w.CombinedOutput p.ExecYaml saved.path).isNone) = true
      ↔ (execPluginsOnSubtitle cfg w saved).2 = none := by
  unfold execPluginsOnSubtitle
  rw [execPluginsLoop_nil_iff]
  simp [plugins.Plugin.Run, List.all_eq_true, Option.isNone_iff_eq_none]

/-- What a unit adds to the result is what the specification acquires for it. -/
theorem unitSaved_eq_acquired (cfg : Config) (w : World) (item : types.Video)
    (found : List OnlineSubtitle) (l : Tag) (hs : w.SearchSubtitles item = .ok found) :
    unitSaved cfg w item (HearingImpaired (found.map Subtitle.online) cfg.Impaired) l
      = acquired cfg w item l := by
  unfold unitSaved acquired bestCandidate
  rw [hs, pool_eq]
  simp only []
  cases hp : found.filter (fun c => (cfg.Impaired || !c.hi) && decide (c.lang = l)) with
  | nil => simp [downloadBestSubtitle, RateByMedia, List.argmax]
  | cons c cs =>
    obtain ⟨b, hb1, hb2⟩ := Best_foldl (fun x => cfg.Evaluator item (Subtitle.online x)) cs c
    have harg : List.argmax (fun x => cfg.Evaluator item (Subtitle.online x)) (c :: cs)
        = some b := by
      simp only [List.argmax, List.foldl_cons, List.argAux]
      exact hb1
    rw [harg]
    simp only [downloadBestSubtitle, RateByMedia, List.map_cons, List.map_map]
    have hb3 : Best { Subtitle := Subtitle.online c, Score := cfg.Evaluator item (Subtitle.online c) }
        (List.map ((fun s => ({ Subtitle := s, Score := cfg.Evaluator item s } : RatedSubtitle))
          ∘ Subtitle.online) cs)
        = ⟨Subtitle.online b, cfg.Evaluator item (Subtitle.online b)⟩ := hb2
    rw [hb3]
    simp only []
    by_cases hlow : cfg.Evaluator item (Subtitle.online b) < threshold cfg
    · simp [hlow]
    · simp only [hlow, if_false]
      cases hd : w.Download b with
      | error e => simp
      | ok srt =>
        simp only []
        cases hsv : w.SaveSubtitle item srt b.lang with
        | error e => simp
        | ok saved =>
          simp only []
          cases hpl : (execPluginsOnSubtitle cfg w saved).2 with
          | none =>
            have := (plugins_all_iff cfg w saved).mpr hpl
            simp [this, emit]
          | some e =>
            have : ¬ cfg.Plugins.all
                (fun p => (w.CombinedOutput p.ExecYaml saved.path).isNone) = true := by
              rw [plugins_all_iff, hpl]; simp
            simp [this, emit]

/-- With online candidates only, `downloadBestSubtitle` never ends the process. -/
theorem downloadBestSubtitle_no_exit (cfg : Config) (w : World) (m : types.Video)
    (l : List Subtitle) (hon : ∀ s ∈ l, ∃ c, s = Subtitle.online c) :
    (downloadBestSubtitle cfg w m l).2 ≠ Saved.exit := by
  rcases downloadBestSubtitle_cases cfg w m l with
    ⟨_, h1⟩ | ⟨r, rs, _, _, h1⟩ | ⟨r, rs, x, hr, _, hb, h1⟩ | ⟨r, rs, onl, e, _, _, _, _, h1⟩
    | ⟨r, rs, onl, srt2, e, hr, hlow, hb, hd, hs, h1⟩
    | ⟨r, rs, onl, srt2, saved, hr, hlow, hb, hd, hs, h1⟩
  · rw [h1]; simp
  · rw [h1]; simp
  · exfalso
    have hmem : Best r rs ∈ RateByMedia l m cfg.Evaluator := by
      rw [hr]; exact Best_mem r rs
    unfold RateByMedia at hmem
    obtain ⟨s, hs, hs2⟩ := List.mem_map.mp hmem
    obtain ⟨c, hc⟩ := hon s hs
    rw [← hs2, hc] at hb
    cases hb
  · rw [h1]; simp
  · rw [h1]; simp
  · rw [h1]
    cases (execPluginsOnSubtitle cfg w saved).2 <;> simp

/-- In a lenient live run over language tags and online candidates the language loop
runs to its end and adds, in order, what each unit saved. -/
theorem langLoop_lenient (cfg : Config) (w : World) (item : types.Video)
    (subs : List Subtitle) (err : Option Error)
    (hstrict : cfg.Strict = false) (hdry : cfg.Dry = false)
    (hon : ∀ s ∈ subs, ∃ c, s = Subtitle.online c)
    (langs : List SetItem) (htag : ∀ x ∈ langs, ∃ t, x = SetItem.tag t)
    (result : Option (List LocalSubtitle)) :
    ∃ r, (langLoop cfg w item subs err langs result).2 = Flow.next r
      ∧ r.getD [] = result.getD []
          ++ langs.filterMap (fun l => l.asTag.bind (unitSaved cfg w item subs)) := by
  induction langs generalizing result with
  | nil => exact ⟨result, rfl, by simp⟩
  | cons x xs ih =>
    obtain ⟨t, ht⟩ := htag x (List.mem_cons_self _ _)
    subst ht
    have ih2 := fun res => ih (fun y hy => htag y (List.mem_cons_of_mem _ hy)) res
    rw [langLoop_cons]
    by_cases hempty : FilterLanguage subs t = []
    · rw [langLoop_one_empty cfg w item subs err (SetItem.tag t) t result rfl hempty]
      obtain ⟨r, hr1, hr2⟩ := ih2 result
      refine ⟨r, by simp [andThen, hr1], ?_⟩
      rw [hr2]
      have hu : unitSaved cfg w item subs t = none := by
        simp [unitSaved, hempty, downloadBestSubtitle, RateByMedia]
      simp [SetItem.asTag, hu]
    · rw [langLoop_one_unit cfg w item subs err (SetItem.tag t) t result rfl hdry hempty]
      have hne := downloadBestSubtitle_no_exit cfg w item (FilterLanguage subs t)
        (fun s hs => hon s (List.mem_of_mem_filter hs))
      cases hd : (downloadBestSubtitle cfg w item (FilterLanguage subs t)).2 with
      | exit => exact absurd hd hne
      | err e =>
        obtain ⟨r, hr1, hr2⟩ := ih2 result
        refine ⟨r, by simp [andThen, hstrict, hr1], ?_⟩
        rw [hr2]
        have hu : unitSaved cfg w item subs t = none := by
          simp [unitSaved, hd]
        simp [SetItem.asTag, hu]
      | ok sub =>
        obtain ⟨r, hr1, hr2⟩ := ih2 (goAppend result sub)
        refine ⟨r, by simp [andThen, hr1], ?_⟩
        rw [hr2]
        have hu : unitSaved cfg w item subs t = some sub := by
          simp [unitSaved, hd]
        simp [SetItem.asTag, hu, goAppend]

/-- The list `List()` yields for a set holds the elements of the set only. -/
theorem ListOrder_mem (w : World) (i : Nat) (s : LangSet) (x : SetItem)
    (h : x ∈ w.ListOrder i s) : x ∈ s :=
  ((w.ListOrder_perm i s).mem_iff).mp h

/-- The list `List()` yields for the empty set is empty. -/
theorem ListOrder_nil (w : World) (i : Nat) : w.ListOrder i [] = [] :=
  List.Perm.eq_nil (w.ListOrder_perm i [])

/-- The members of the set difference are members of the first set. -/
theorem Difference_mem (a b : LangSet) (x : SetItem) (h : x ∈ Difference a b) : x ∈ a := by
  unfold Difference at h
  exact List.mem_of_mem_filter (List.mem_dedup.mp h)

/-- In a lenient live run over language tags and videos that can list their subtitles
the item loop runs to its end and adds the subtitles the specification expects, each
video taking its missing languages in the order `List()` yields them. -/
theorem itemLoop_lenient (cfg : Config) (w : World) (L : LangSet)
    (hstrict : cfg.Strict = false) (hdry : cfg.Dry = false)
    (htag : ∀ x ∈ L, ∃ t, x = SetItem.tag t) (i : Nat)
    (items : List types.Video) (hex : ∀ v ∈ items, ∃ cur, w.ExistingSubtitles v = .ok cur)
    (result : Option (List LocalSubtitle)) :
    ∃ r, (itemLoop cfg w L i items result).2 = Flow.next r
      ∧ r.getD [] = result.getD [] ++ expectedFrom cfg w L i items := by
  induction items generalizing result i with
  | nil => exact ⟨result, rfl, by simp [expectedFrom]⟩
  | cons item rest ih =>
    obtain ⟨cur, hcur⟩ := hex item (List.mem_cons_self _ _)
    have ih2 := fun res => ih (i + 1) (fun y hy => hex y (List.mem_cons_of_mem _ hy)) res
    have hexp : expectedFrom cfg w L i (item :: rest)
        = (w.ListOrder i (Difference L (LanguageSet cur))).filterMap
            (fun l => l.asTag.bind (acquired cfg w item))
          ++ expectedFrom cfg w L (i + 1) rest := by
      simp [expectedFrom, missingLangs, hcur]
    rw [itemLoop_cons, hexp]
    by_cases hmiss : Difference L (LanguageSet cur) = []
    · rw [itemLoop_one_covered cfg w L i item result cur hcur hmiss, hmiss, ListOrder_nil]
      obtain ⟨r, hr1, hr2⟩ := ih2 result
      exact ⟨r, by simp [andThen, hr1], by simp [hr2]⟩
    · rw [itemLoop_one_missing cfg w L i item result cur hcur hmiss,
        searchStep_live cfg w item hdry]
      cases hs : w.SearchSubtitles item with
      | error e =>
        obtain ⟨r, hr1, hr2⟩ := ih2 result
        refine ⟨r, by simp [andThen, hstrict, hr1], ?_⟩
        have hnone : (w.ListOrder i (Difference L (LanguageSet cur))).filterMap
            (fun l => l.asTag.bind (acquired cfg w item)) = [] := by
          rw [List.filterMap_eq_nil_iff]
          intro l _
          cases l.asTag with
          | none => rfl
          | some t => simp [acquired, hs]
        rw [hr2, hnone]
        simp
      | ok found =>
        have htag2 : ∀ x ∈ w.ListOrder i (Difference L (LanguageSet cur)),
            ∃ t, x = SetItem.tag t :=
          fun x hx => htag x (Difference_mem L _ x (ListOrder_mem w i _ x hx))
        have hon : ∀ s ∈ HearingImpaired (found.map Subtitle.online) cfg.Impaired,
            ∃ c, s = Subtitle.online c := by
          intro s hs2
          have hs3 : s ∈ found.map Subtitle.online := by
            unfold HearingImpaired at hs2
            split at hs2
            · exact hs2
            · exact List.mem_of_mem_filter hs2
          obtain ⟨c, _, hc⟩ := List.mem_map.mp hs3
          exact ⟨c, hc.symm⟩
        obtain ⟨r1, hl1, hl2⟩ := langLoop_lenient cfg w item
          (HearingImpaired (found.map Subtitle.online) cfg.Impaired) none hstrict hdry hon
          (w.ListOrder i (Difference L (LanguageSet cur))) htag2 result
        obtain ⟨r, hr1, hr2⟩ := ih2 r1
        refine ⟨r, by simp [andThen, hl1, hr1], ?_⟩
        rw [hr2, hl2]
        have hfm : (w.ListOrder i (Difference L (LanguageSet cur))).filterMap
            (fun l => l.asTag.bind (unitSaved cfg w item
              (HearingImpaired (found.map Subtitle.online) cfg.Impaired)))
            = (w.ListOrder i (Difference L (LanguageSet cur))).filterMap
              (fun l => l.asTag.bind (acquired cfg w item)) := by
          congr 1
          funext l
          cases l.asTag with
          | none => rfl
          | some t => simp [unitSaved_eq_acquired cfg w item found t hs]
        rw [hfm, List.append_assoc]

/-- C3: in a lenient live run, when the preconditions hold, every video can list its
subtitles and every wanted language is a language tag, `DownloadSubtitles` returns a nil
error whatever fails in the units, and the returned list is, for each video in catalog
order and each of its missing languages in the order in which `List()` yields them for
that video (an order the set does not fix: the theorem holds for every such order), the
subtitle saved by the unit in which the search, the selection not below the threshold,
the download, the save and every plugin succeeded; a unit in which one of them failed
adds nothing. -/
theorem DownloadSubtitles_lenient (cfg : Config) (w : World) (m : list.LocalMedia)
    (L : LangSet) (hstrict : cfg.Strict = false) (hdry : cfg.Dry = false)
    (hv : m.media.filterMap types.LocalMedia.asVideo ≠ [])
    (hex : ∀ v ∈ m.media.filterMap types.LocalMedia.asVideo,
      ∃ cur, w.ExistingSubtitles v = .ok cur)
    (htag : ∀ x ∈ L, ∃ t, x = SetItem.tag t) :
    ∃ r, (DownloadSubtitles cfg w (some m) (some L)).2 = Outcome.ret r none
      ∧ r.getD [] = expectedResult cfg w (m.media.filterMap types.LocalMedia.asVideo) L := by
  rw [DownloadSubtitles_run cfg w m L hv, FilterMissingSubs_ok w L _ hex]
  simp only []
  obtain ⟨r, hr1, hr2⟩ := itemLoop_lenient cfg w L hstrict hdry htag 0
    ((m.media.filterMap types.LocalMedia.asVideo).filter
      (fun v => decide (missingLangs w L v ≠ [])))
    (fun v hv2 => hex v (List.mem_of_mem_filter hv2)) none
  refine ⟨r, by rw [hr1], ?_⟩
  rw [hr2]
  simp [expectedResult]

/-- C3 at the sample catalog, English and Danish wanted. With a plugin, in the world
where the Danish download fails: the English subtitle of each video is returned and the
Danish unit adds nothing. In the world where every download succeeds and `List()` yields
English first for the first video and Danish first for the second: the four subtitles
are returned in exactly that order. -/
theorem DownloadSubtitles_lenient_sample :
    (∃ r, (DownloadSubtitles { sampleConfig with Plugins := [⟨"first", "touch"⟩] }
          sampleWorld (some sampleCatalog) (some [SetItem.tag en, SetItem.tag da])).2
        = Outcome.ret r none
      ∧ r.getD [] = [⟨"/media/Alien (1979).mkv.en.srt", en, false⟩,
          ⟨"/media/Heat (1995).mkv.en.srt", en, false⟩])
    ∧ ∃ r, (DownloadSubtitles sampleConfig orderWorld (some sampleCatalog)
          (some [SetItem.tag en, SetItem.tag da])).2 = Outcome.ret r none
      ∧ r.getD [] = [⟨"/media/Alien (1979).mkv.en.srt", en, false⟩,
          ⟨"/media/Alien (1979).mkv.da.srt", da, false⟩,
          ⟨"/media/Heat (1995).mkv.da.srt", da, false⟩,
          ⟨"/media/Heat (1995).mkv.en.srt", en, false⟩] := by
  have htag : ∀ x ∈ [SetItem.tag en, SetItem.tag da], ∃ t, x = SetItem.tag t := by
    intro x hx
    simp only [List.mem_cons, List.mem_singleton, List.not_mem_nil, or_false] at hx
    rcases hx with h | h
    · exact ⟨en, h⟩
    · exact ⟨da, h⟩
  obtain ⟨r, h1, h2⟩ := DownloadSubtitles_lenient
    { sampleConfig with Plugins := [⟨"first", "touch"⟩] } sampleWorld sampleCatalog
    [SetItem.tag en, SetItem.tag da] rfl rfl (by decide) (fun _ _ => ⟨[], rfl⟩) htag
  obtain ⟨r2, h3, h4⟩ := DownloadSubtitles_lenient sampleConfig orderWorld sampleCatalog
    [SetItem.tag en, SetItem.tag da] rfl rfl (by decide) (fun _ _ => ⟨[], rfl⟩) htag
  exact ⟨⟨r, h1, h2.trans (by decide)⟩, ⟨r2, h3, h4.trans (by decide)⟩⟩


/-! ## The threshold -/

/-- The subtitles the language loop hands on or returns are those it was given and
those saved by `downloadBestSubtitle`. -/
theorem langLoop_results (cfg : Config) (w : World) (item : types.Video)
    (subs : List Subtitle) (err : Option Error) (P : LocalSubtitle → Prop)
    (hP : ∀ pool s, (downloadBestSubtitle cfg w item pool).2 = Saved.ok s → P s)
    (langs : List SetItem) (result : Option (List LocalSubtitle))
    (hres : ∀ s ∈ result.getD [], P s) :
    ∀ s ∈ (langLoop cfg w item subs err langs result).2.results, P s := by
  induction langs generalizing result with
  | nil => simpa [langLoop, Flow.results] using hres
  | cons x xs ih =>
    rw [langLoop_cons]
    cases hx : x.asTag with
    | none =>
      rw [langLoop_one_other cfg w item subs err x result hx]
      simp [andThen, Flow.results]
    | some t =>
      by_cases hempty : FilterLanguage subs t = []
      · rw [langLoop_one_empty cfg w item subs err x t result hx hempty]
        simpa [andThen] using ih result hres
      · cases hdry : cfg.Dry with
        | true =>
          rw [langLoop_one_dry cfg w item subs err x t result hx hdry]
          simpa [andThen] using ih result hres
        | false =>
          rw [langLoop_one_unit cfg w item subs err x t result hx hdry hempty]
          cases hd : (downloadBestSubtitle cfg w item (FilterLanguage subs t)).2 with
          | exit => simp [andThen, Flow.results]
          | err e =>
            cases hs : cfg.Strict with
            | true => simp [andThen, Flow.results]
            | false => simpa [andThen] using ih result hres
          | ok sub =>
            have h2 : ∀ s ∈ (goAppend result sub).getD [], P s := by
              intro s hs
              simp only [goAppend, Option.getD_some, List.mem_append,
                List.mem_singleton] at hs
              rcases hs with hs | hs
              · exact hres s hs
              · rw [hs]; exact hP _ _ hd
            simpa [andThen] using ih (goAppend result sub) h2

/-- The subtitles the item loop hands on or returns are those it was given and those
saved by `downloadBestSubtitle`. -/
theorem itemLoop_results (cfg : Config) (w : World) (L : LangSet)
    (P : LocalSubtitle → Prop)
    (hP : ∀ item pool s, (downloadBestSubtitle cfg w item pool).2 = Saved.ok s → P s)
    (i : Nat) (items : List types.Video) (result : Option (List LocalSubtitle))
    (hres : ∀ s ∈ result.getD [], P s) :
    ∀ s ∈ (itemLoop cfg w L i items result).2.results, P s := by
  induction items generalizing result i with
  | nil => simpa [itemLoop, Flow.results] using hres
  | cons item rest ih =>
    rw [itemLoop_cons]
    cases hex : w.ExistingSubtitles item with
    | error e =>
      rw [itemLoop_one_unreadable cfg w L i item result e hex]
      simp [andThen, Flow.results]
    | ok cur =>
      by_cases hmiss : Difference L (LanguageSet cur) = []
      · rw [itemLoop_one_covered cfg w L i item result cur hex hmiss]
        simpa [andThen] using ih (i + 1) result hres
      · rw [itemLoop_one_missing cfg w L i item result cur hex hmiss]
        cases hs : (searchStep cfg w item).2 with
        | stop o =>
          have ho : o = Outcome.exit ∨ ∃ e, o = Outcome.ret none e := by
            unfold searchStep at hs
            split at hs
            · split at hs
              · split at hs
                · injection hs with hs; exact Or.inr ⟨_, hs.symm⟩
                · cases hs
              · split at hs
                · injection hs with hs; exact Or.inl hs.symm
                · cases hs
            · cases hs
          rcases ho with ho | ⟨e, ho⟩
          · subst ho; simp [andThen, Flow.results]
          · subst ho; simp [andThen, Flow.results]
        | skip => simpa [andThen] using ih (i + 1) result hres
        | subs found e =>
          have hl := langLoop_results cfg w item (HearingImpaired found cfg.Impaired) e P
            (hP item) (w.ListOrder i (Difference L (LanguageSet cur))) result hres
          cases hlf : (langLoop cfg w item (HearingImpaired found cfg.Impaired) e
              (w.ListOrder i (Difference L (LanguageSet cur))) result).2 with
          | stop o =>
            rw [hlf] at hl
            simpa [andThen, hlf] using hl
          | next r =>
            rw [hlf] at hl
            simpa [andThen, hlf] using ih (i + 1) r (by simpa [Flow.results] using hl)

/-- Every subtitle `DownloadSubtitles` returns was saved by `downloadBestSubtitle`. -/
theorem DownloadSubtitles_results (cfg : Config) (w : World)
    (media : Option list.LocalMedia) (lang : Option LangSet) (P : LocalSubtitle → Prop)
    (hP : ∀ item pool s, (downloadBestSubtitle cfg w item pool).2 = Saved.ok s → P s)
    (res : Option (List LocalSubtitle)) (err : Option Error)
    (h : (DownloadSubtitles cfg w media lang).2 = Outcome.ret res err) :
    ∀ s ∈ res.getD [], P s := by
  have hnil : ∀ e0, (DownloadSubtitles cfg w media lang).2 = Outcome.ret none e0 →
      ∀ s ∈ res.getD [], P s := by
    intro e0 h0
    rw [h0] at h
    injection h with h1 h2
    subst h1
    simp
  cases media with
  | none => exact hnil _ rfl
  | some m =>
    cases lang with
    | none => exact hnil _ rfl
    | some L =>
      by_cases hv : m.media.filterMap types.LocalMedia.asVideo = []
      · have h0 := DownloadSubtitles_no_video cfg w m L hv
        exact hnil _ (by rw [h0])
      · rw [DownloadSubtitles_run cfg w m L hv] at h
        cases hf : (FilterMissingSubs w L
            (m.media.filterMap types.LocalMedia.asVideo)).2 with
        | error e =>
          rw [hf] at h
          injection h with h1 h2
          subst h1
          simp
        | ok video =>
          rw [hf] at h
          simp only [] at h
          have hi := itemLoop_results cfg w L P hP 0 video none (by simp)
          cases hif : (itemLoop cfg w L 0 video none).2 with
          | stop o =>
            rw [hif] at h hi
            simp only [] at h
            subst h
            simpa [Flow.results] using hi
          | next r =>
            rw [hif] at h hi
            simp only [] at h
            injection h with h1 h2
            subst h1
            simpa [Flow.results] using hi

set_option maxRecDepth 100000 in
/-- The `float32` quotient of a percentage from 0 to 100 by 100 is within 2^-25 of the
exact quotient, in the integers: with `t` the `float32`, the distance of `100 * t.num`
and `s * t.den`, times 2^25, is at most `100 * t.den`. -/
theorem percentF32_near_int :
    ∀ s : Fin 101,
      ((percentF32 s.val).num * 100 - s.val * (percentF32 s.val).den).natAbs * 33554432
        ≤ 100 * (percentF32 s.val).den := by
  decide

/-- The `float32` quotient of a percentage from 0 to 100 by 100 is within 2^-25 of the
exact quotient. -/
theorem percentF32_near (s : Nat) (hs : s ≤ 100) :
    |percentF32 s - (s : ℚ) / 100| ≤ 1 / 33554432 := by
  have h := percentF32_near_int ⟨s, Nat.lt_succ_of_le hs⟩
  simp only at h
  generalize percentF32 (s : Int) = t at h ⊢
  have hden : (0 : ℚ) < (t.den : ℚ) := by exact_mod_cast t.den_pos
  have hmul : t * (t.den : ℚ) = (t.num : ℚ) := Rat.mul_den_eq_num t
  have hdiff : t - (s : ℚ) / 100
      = ((t.num : ℚ) * 100 - (s : ℚ) * (t.den : ℚ)) / (100 * (t.den : ℚ)) := by
    field_simp
    linear_combination 10000 * hmul
  have habs : |(t.num : ℚ) * 100 - (s : ℚ) * (t.den : ℚ)|
      = (((t.num * 100 - (s : Int) * (t.den : Int)).natAbs : Nat) : ℚ) := by
    rw [Nat.cast_natAbs, Int.cast_abs]
    push_cast
    rfl
  have h2 : (((t.num * 100 - (s : Int) * (t.den : Int)).natAbs * 33554432 : Nat) : ℚ)
      ≤ ((100 * t.den : Nat) : ℚ) := by exact_mod_cast h
  push_cast at h2
  rw [hdiff, abs_div, abs_of_pos (by positivity : (0 : ℚ) < 100 * (t.den : ℚ)), habs,
    div_le_div_iff₀ (by positivity) (by norm_num)]
  linarith

/-- C6 (as stated, refuted): with a threshold of 70 percent the `float32` quotient
`float32(70) / 100.0` is 11744051/16777216, below 70/100. A best candidate with exactly
that score is strictly below score/100, yet line 126 does not reject it: it is
downloaded and saved. -/
theorem downloadBestSubtitle_rounded_threshold :
    boundaryConfig.Score = 70
    ∧ RateByMedia [Subtitle.online cand1] video1 boundaryConfig.Evaluator
        = [⟨Subtitle.online cand1, mkRat 11744051 16777216⟩]
    ∧ (Best ⟨Subtitle.online cand1, mkRat 11744051 16777216⟩ []).Score
        < (boundaryConfig.Score : ℚ) / 100
    ∧ threshold boundaryConfig = mkRat 11744051 16777216
    ∧ downloadBestSubtitle boundaryConfig sampleWorld video1 [Subtitle.online cand1]
        = ([Event.Download cand1, Event.SaveSubtitle video1 ⟨"http://subs/1"⟩ en],
            Saved.ok savedSub) := by
  refine ⟨rfl, by decide, ?_, by decide, by decide⟩
  have h1 : (Best ⟨Subtitle.online cand1, mkRat 11744051 16777216⟩ []).Score
      = mkRat 11744051 16777216 := rfl
  have h2 : boundaryConfig.Score = 70 := rfl
  rw [h1, h2]
  norm_num [Rat.mkRat_eq_div]

/-- C6 (amended): the threshold is the `float32` quotient `float32(score) / 100.0`, the
`float32` nearest to score/100 (within 2^-25 of it for a percentage from 0 to 100), which
can lie below score/100. When the score of the best
rated candidate is strictly below that threshold, `downloadBestSubtitle` returns an error
without any call (no download, no save); hence a save call of `downloadBestSubtitle` is
for a best candidate whose score is at least the threshold, and every subtitle in the
result of `DownloadSubtitles` was saved for the best candidate of some pool, of score at
least the threshold. -/
theorem downloadBestSubtitle_threshold (cfg : Config) (w : World) :
    (∀ s : Nat, s ≤ 100 → cfg.Score = s →
      |threshold cfg - (cfg.Score : ℚ) / 100| ≤ 1 / 33554432)
    ∧ (∀ m l r rs, RateByMedia l m cfg.Evaluator = r :: rs →
      (Best r rs).Score < threshold cfg →
      ∃ e, downloadBestSubtitle cfg w m l = ([], Saved.err e))
    ∧ (∀ m l m2 srt lang, Event.SaveSubtitle m2 srt lang ∈ (downloadBestSubtitle cfg w m l).1 →
      ∃ r rs onl, RateByMedia l m cfg.Evaluator = r :: rs
        ∧ threshold cfg ≤ (Best r rs).Score
        ∧ (Best r rs).Subtitle = Subtitle.online onl
        ∧ w.Download onl = .ok srt ∧ m2 = m ∧ lang = onl.lang)
    ∧ (∀ media lang res err s,
      (DownloadSubtitles cfg w media lang).2 = Outcome.ret res err → s ∈ res.getD [] →
      ∃ item pool r rs onl srt, RateByMedia pool item cfg.Evaluator = r :: rs
        ∧ threshold cfg ≤ (Best r rs).Score
        ∧ (Best r rs).Subtitle = Subtitle.online onl
        ∧ w.Download onl = .ok srt
        ∧ w.SaveSubtitle item srt onl.lang = .ok s) := by
  refine ⟨?_, ?_, ?_, ?_⟩
  · intro s hs hsc
    unfold threshold
    rw [hsc, Int.cast_natCast]
    exact percentF32_near s hs
  · intro m l r rs hr hlow
    exact ⟨Error.scoreTooLow (Best r rs).Score, by simp [downloadBestSubtitle, hr, hlow]⟩
  · intro m l m2 srt lang h
    obtain ⟨r, rs, onl, hr, hlow, hb, hd, h1, h2⟩ :=
      downloadBestSubtitle_save cfg w m l m2 srt lang h
    exact ⟨r, rs, onl, hr, not_lt.mp hlow, hb, hd, h1, h2⟩
  · intro media lang res err s h hs
    have key := DownloadSubtitles_results cfg w media lang
      (fun s => ∃ item pool r rs onl srt, RateByMedia pool item cfg.Evaluator = r :: rs
        ∧ threshold cfg ≤ (Best r rs).Score
        ∧ (Best r rs).Subtitle = Subtitle.online onl
        ∧ w.Download onl = .ok srt
        ∧ w.SaveSubtitle item srt onl.lang = .ok s)
      (by
        intro item pool s2 hok
        obtain ⟨r, rs, onl, srt, hr, hlow, hb, hd, hsv, _⟩ :=
          downloadBestSubtitle_ok cfg w item pool s2 hok
        exact ⟨item, pool, r, rs, onl, srt, hr, not_lt.mp hlow, hb, hd, hsv⟩)
      res err h s hs
    exact key

/-- C6 (amended) at a threshold of 95 percent, where the best English candidate scores
9/10 and nothing is downloaded or saved, and at the threshold of 60 percent, where the
subtitle returned for the first video was saved for a candidate whose score is at least
the threshold `float32(60) / 100.0`. -/
theorem downloadBestSubtitle_threshold_sample :
    ((Best ⟨Subtitle.online cand1, mkRat 9 10⟩ [⟨Subtitle.online cand2, mkRat 4 10⟩]).Score
        = mkRat 9 10
      ∧ threshold { sampleConfig with Score := 95 } = mkRat 15938355 16777216
      ∧ ∃ e, downloadBestSubtitle { sampleConfig with Score := 95 } sampleWorld video1
          [Subtitle.online cand1, Subtitle.online cand2] = ([], Saved.err e))
    ∧ threshold sampleConfig = mkRat 5033165 8388608
    ∧ ∃ item pool r rs onl srt, RateByMedia pool item sampleConfig.Evaluator = r :: rs
        ∧ threshold sampleConfig ≤ (Best r rs).Score
        ∧ (Best r rs).Subtitle = Subtitle.online onl
        ∧ sampleWorld.Download onl = .ok srt
        ∧ sampleWorld.SaveSubtitle item srt onl.lang = .ok savedSub :=
  ⟨⟨by decide, by decide,
    (downloadBestSubtitle_threshold { sampleConfig with Score := 95 } sampleWorld).2.1 video1
      [Subtitle.online cand1, Subtitle.online cand2]
      ⟨Subtitle.online cand1, mkRat 9 10⟩ [⟨Subtitle.online cand2, mkRat 4 10⟩]
      (by decide) (by decide)⟩,
   by decide,
   (downloadBestSubtitle_threshold sampleConfig sampleWorld).2.2.2
      (some sampleCatalog) (some [SetItem.tag en])
      (some [savedSub, ⟨"/media/Heat (1995).mkv.en.srt", en, false⟩]) none savedSub
      (by decide) (by decide)⟩

end app

namespace plugins

/-! ## The plugin list of the configuration file -/

/-- The loop of `Plugins` appends the one pointer `&p` once for each element. -/
theorem pluginsLoop_pointers (p : Nat) (xs : List Plugin) (cells : Cells) (pl : List Nat) :
    (pluginsLoop p xs cells pl).2 = pl ++ List.replicate xs.length p := by
  induction xs generalizing cells pl with
  | nil => simp [pluginsLoop]
  | cons x rest ih =>
    simp only [pluginsLoop, ih, List.length_cons, List.replicate_succ, List.append_assoc,
      List.singleton_append]

/-- The loop of `Plugins` leaves the last element in the variable `p` and touches no
other variable. -/
theorem pluginsLoop_cells (p : Nat) (xs : List Plugin) (cells : Cells) (pl : List Nat) :
    (pluginsLoop p xs cells pl).1
      = match xs.getLast? with
        | some x => cells.set p x
        | none => cells := by
  induction xs generalizing cells pl with
  | nil => simp [pluginsLoop]
  | cons x rest ih =>
    simp only [pluginsLoop, ih]
    cases rest with
    | nil => simp
    | cons y ys =>
      simp only [List.getLast?_cons_cons]
      cases hl : (y :: ys).getLast? with
      | none => simp at hl
      | some z => simp [List.set_set]

/-- Every plugin behind the pointers returned by `Plugins` is the last plugin of
`PluginList`, as many times as the list is long. -/
theorem Plugins_handed (c : Config) :
    c.handed
      = List.replicate c.PluginList.length (c.PluginList.getLast?.getD Plugin.zero) := by
  unfold Config.handed Config.Plugins
  rw [pluginsLoop_pointers, pluginsLoop_cells]
  cases hl : c.PluginList.getLast? with
  | none =>
    have hnil : c.PluginList = [] := by simpa using hl
    simp [hnil]
  | some x =>
    simp only [List.nil_append, Option.getD_some]
    generalize c.PluginList.length = n
    induction n with
    | zero => simp
    | succ k ih => simp [List.replicate_succ, ih]

/-- With a loop variable per iteration the caller would work with the configured
plugins, in the configured order. -/
theorem pluginsLoopPerIteration_handed (xs : List Plugin) (cells : Cells) (pl : List Nat)
    (vals : List Plugin)
    (h : pl.filterMap (fun ptr => cells[ptr]?) = vals)
    (hb : ∀ ptr ∈ pl, ptr < cells.length) :
    (pluginsLoopPerIteration xs cells pl).2.filterMap
        (fun ptr => (pluginsLoopPerIteration xs cells pl).1[ptr]?)
      = vals ++ xs := by
  induction xs generalizing cells pl vals with
  | nil => simpa [pluginsLoopPerIteration] using h
  | cons x rest ih =>
    simp only [pluginsLoopPerIteration]
    have h2 : (pl ++ [cells.length]).filterMap (fun ptr => (cells ++ [x])[ptr]?)
        = vals ++ [x] := by
      rw [List.filterMap_append, ← h]
      congr 1
      · apply List.filterMap_congr
        intro ptr hptr
        rw [List.getElem?_append_left (hb ptr hptr)]
      · simp
    have hb2 : ∀ ptr ∈ pl ++ [cells.length], ptr < (cells ++ [x]).length := by
      intro ptr hptr
      rcases List.mem_append.mp hptr with hp | hp
      · have := hb ptr hp
        simp only [List.length_append, List.length_singleton]
        omega
      · simp only [List.mem_singleton] at hp
        simp [hp]
    rw [ih (cells ++ [x]) (pl ++ [cells.length]) (vals ++ [x]) h2 hb2]
    simp

/-- With a loop variable per iteration the list handed on is `PluginList` itself. -/
theorem Plugins_handedPerIteration (c : Config) : c.handedPerIteration = c.PluginList := by
  unfold Config.handedPerIteration
  rw [pluginsLoopPerIteration_handed c.PluginList [] [] [] (by simp) (by simp)]
  simp

end plugins

namespace app
open types list

/-- C11 (the defect): for the configuration that lists the plugins first, second and
third, `Plugins` returns three times the pointer to the one loop variable, which holds
the third plugin after the loop; so the name of the first returned plugin is that of the
third, and the orchestrator runs the command of the third plugin three times and never
the failing command of the second. -/
theorem Plugins_aliased :
    samplePluginFile.PluginList
      = [⟨"first", "touch"⟩, ⟨"second", "false"⟩, ⟨"third", "echo"⟩]
    ∧ samplePluginFile.Plugins = ([⟨"third", "echo"⟩], [0, 0, 0])
    ∧ (samplePluginFile.returned 0).map plugins.Plugin.Name = some "third"
    ∧ (samplePluginFile.returned 1).map plugins.Plugin.Name = some "third"
    ∧ samplePluginFile.handed
      = [⟨"third", "echo"⟩, ⟨"third", "echo"⟩, ⟨"third", "echo"⟩]
    ∧ execPluginsOnSubtitle { sampleConfig with Plugins := samplePluginFile.handed }
        pluginFailWorld savedSub
      = ([Event.Run ⟨"third", "echo"⟩ savedSub, Event.Run ⟨"third", "echo"⟩ savedSub,
          Event.Run ⟨"third", "echo"⟩ savedSub], none) := by
  decide

end app
end Supper
